import Mathlib

/-!
Verification development for the `jsonpp` JSON value library (`src/json.hpp`).

The C++ library stores a JSON document as a graph of heap-allocated `Node`
objects reached through `Proxy<Node>` handles.  A `Proxy` is a
`shared_ptr<shared_ptr<Node>>`: copying a `Proxy` shares the outer cell, and
`reset` overwrites the inner pointer held in that outer cell, so every copy of
the handle observes the swap.

We embed this shallowly: a *cell* models the outer `shared_ptr` cell (its
content, a node id, models the inner `shared_ptr<Node>`), and a *node id*
models one heap-allocated `Node` object.  A `Proxy<Node>` value is a cell id.
The mutable store `St` maps cell ids to node ids and node ids to node values;
fresh ids come from counters.  All operations of the library are explicit
state-passing functions over `St`, translated from `src/json.hpp`.
-/

namespace Jsonpp

/-- Serialization mode of a `ValueNode`: models which `_printer` lambda the
node was constructed with.  `unset` models a default-constructed `ValueNode`
whose `std::function` printer is empty (its value is absent, so `dump` never
invokes the printer). -/
inductive PMode where
  | strm
  | num
  | boolm
  | unset
deriving DecidableEq, Repr

/-- The data of a `ValueNode`: `_value : std::optional<std::string>` plus the
printer tag. -/
structure ValueData where
  value : Option String
  mode : PMode
deriving DecidableEq, Repr

/-- A `Node` object on the C++ heap.  `base` is a plain (base-class) `Node`,
which is what `std::map<std::string, Proxy<Node>>::operator[]` default
constructs for an absent key (`Proxy`'s variadic constructor with no
arguments makes a `std::make_shared<Node>()`). -/
inductive NodeV where
  | base
  | leaf (d : ValueData)
  | obj (kids : List (String × Nat))
  | arr (kids : List Nat)
deriving DecidableEq, Repr

/-- `Node::is_leaf` (virtual, overridden only by `ValueNode`). -/
def NodeV.is_leaf : NodeV → Bool
  | .leaf _ => true
  | _ => false

/-- `Node::key_indexable` (virtual, overridden only by `KeyIndexableNodeI`,
i.e. `ObjectNode`). -/
def NodeV.key_indexable : NodeV → Bool
  | .obj _ => true
  | _ => false

/-- `Node::indexable` (virtual, overridden only by `IndexableNodeI`,
i.e. `ArrayNode`). -/
def NodeV.indexable : NodeV → Bool
  | .arr _ => true
  | _ => false

/-- The child cells referenced from a node object. -/
def NodeV.childCells : NodeV → List Nat
  | .obj kids => kids.map Prod.snd
  | .arr kids => kids
  | _ => []

/-- The mutable store: `cells` maps a cell id (an outer `Proxy` cell) to the
node id its inner pointer designates; `nodes` maps a node id to the node
object's current contents.  `nextCell` / `nextNode` are allocation counters. -/
structure St where
  cells : Nat → Option Nat
  nodes : Nat → Option NodeV
  nextCell : Nat
  nextNode : Nat

/-- The store with nothing allocated. -/
def St.empty : St := ⟨fun _ => none, fun _ => none, 0, 0⟩

/-- Allocate a fresh node object holding `nv`; returns its id. -/
def allocNode (st : St) (nv : NodeV) : St × Nat :=
  (⟨st.cells, fun i => if i = st.nextNode then some nv else st.nodes i,
    st.nextCell, st.nextNode + 1⟩, st.nextNode)

/-- Allocate a fresh cell pointing at node `nid`; returns its id. -/
def allocCell (st : St) (nid : Nat) : St × Nat :=
  (⟨fun i => if i = st.nextCell then some nid else st.cells i, st.nodes,
    st.nextCell + 1, st.nextNode⟩, st.nextCell)

/-- `Proxy<Node>(args...)` / the `proxy` factories: a new node plus a new cell
pointing at it. -/
def newProxy (st : St) (nv : NodeV) : St × Nat :=
  let (st1, nid) := allocNode st nv
  allocCell st1 nid

/-- `Proxy::reset(const Proxy&)` at the store level:
`*pp = *other.pp`, i.e. make cell `c` point at node `nid`. -/
def setCell (st : St) (c : Nat) (nid : Nat) : St :=
  ⟨fun i => if i = c then some nid else st.cells i, st.nodes,
   st.nextCell, st.nextNode⟩

/-- In-place mutation of the node object `nid` (e.g. `std::map::operator[]`
inserting into an `ObjectNode`'s `children`). -/
def setNode (st : St) (nid : Nat) (nv : NodeV) : St :=
  ⟨st.cells, fun i => if i = nid then some nv else st.nodes i,
   st.nextCell, st.nextNode⟩

/-- Dereference a handle: `**pp` — the node currently designated by cell
`c`. -/
def derefNode (st : St) (c : Nat) : Option NodeV :=
  (st.cells c).bind st.nodes

/-! ### Leaf serialization (`ValueNode::dump`) -/

/-- Numeric value of a big-endian run of decimal digit characters. -/
def digitsVal (cs : List Char) : Nat :=
  cs.foldl (fun a c => 10 * a + (c.toNat - 48)) 0

/-- `is_number` from `Json::parse_value`: `'0' <= ch && ch <= '9'`. -/
def isNum (c : Char) : Bool := '0' ≤ c && c ≤ '9'

/-- Model of `std::stoi(value) ? "true" : "false"`'s condition in the boolean
printer.  Boolean leaves store only `"1"` or `"0"`, so reading the leading
digit run captures `std::stoi` exactly on every reachable input. -/
def stoiNZ (s : String) : Bool :=
  digitsVal (s.data.takeWhile isNum) != 0

/-- `ValueNode::dump`: `null` for an absent value, otherwise the stored text
rendered by the printer the constructor installed (quoted for strings, bare
for numbers, `true`/`false` for booleans).  The `unset` case would call an
empty `std::function`; it is unreachable because a default-constructed
`ValueNode` has an absent value. -/
def dumpLeaf (d : ValueData) : String :=
  match d.value with
  | none => "null"
  | some s =>
    match d.mode with
    | .strm => "\"" ++ s ++ "\""
    | .num => s
    | .boolm => if stoiNZ s then "true" else "false"
    | .unset => ""

/-! ### Serialization of the node graph (`Node::dump` and overrides)

The heap may in principle contain cycles (nothing in the library prevents
assigning an ancestor into its own subtree), so the dump recursion is indexed
by fuel; `none` means the fuel ran out or a lookup dangled, which never
happens in the states our theorems touch. -/

mutual

/-- `operator<<` on a handle: dereference the cell and dump the node. -/
def dumpCell : Nat → St → Nat → Option String
  | 0, _, _ => none
  | f + 1, st, c => do
    let nv ← derefNode st c
    dumpNodeV f st nv

/-- `Node::dump` and its overrides, on node contents.  The base `Node::dump`
writes nothing to the stream. -/
def dumpNodeV : Nat → St → NodeV → Option String
  | 0, _, _ => none
  | _ + 1, _, .base => some ""
  | _ + 1, _, .leaf d => some (dumpLeaf d)
  | f + 1, st, .obj kids => do
    let s ← dumpEntries f st kids
    some ("\x7b" ++ s ++ "\x7d")
  | f + 1, st, .arr kids => do
    let s ← dumpElems f st kids
    some ("[" ++ s ++ "]")

/-- The member loop of `ObjectNode::dump`: `"key": value` entries joined by
`", "`, no trailing comma. -/
def dumpEntries : Nat → St → List (String × Nat) → Option String
  | 0, _, _ => none
  | _ + 1, _, [] => some ""
  | f + 1, st, (k, c) :: rest => do
    let v ← dumpCell f st c
    let tail ← dumpEntries f st rest
    some ("\"" ++ k ++ "\": " ++ v ++ (if rest.isEmpty then "" else ", ") ++ tail)

/-- The element loop of `ArrayNode::dump`: elements joined by `", "`. -/
def dumpElems : Nat → St → List Nat → Option String
  | 0, _, _ => none
  | _ + 1, _, [] => some ""
  | f + 1, st, c :: rest => do
    let v ← dumpCell f st c
    let tail ← dumpElems f st rest
    some (v ++ (if rest.isEmpty then "" else ", ") ++ tail)

end

/-! ### `std::map<std::string, Proxy<Node>>` model

`ObjectNode::children` is an `std::map`, i.e. keys are kept in strictly
increasing lexicographic order.  We model it as an association list strictly
sorted by key. -/

/-- `std::string::operator<`: lexicographic comparison, character by
character (bytes in C++; all keys in this development are ASCII, where the
two coincide). -/
def strLt : List Char → List Char → Bool
  | [], [] => false
  | [], _ :: _ => true
  | _ :: _, [] => false
  | a :: as, b :: bs =>
    if a < b then true
    else if b < a then false
    else strLt as bs

/-- The key comparator of `std::map<std::string, Proxy<Node>>`. -/
def keyLt (a b : String) : Bool := strLt a.data b.data

/-- Lookup in the children map. -/
def findKey : List (String × Nat) → String → Option Nat
  | [], _ => none
  | (k', c) :: rest, k => if k = k' then some c else findKey rest k

/-- Sorted insertion of a fresh key (the `std::map::operator[]` default
insertion).  If the key is already present its slot is replaced — that case
is not exercised by `ObjectNode::operator[]`, which only inserts after a
failed lookup. -/
def insertKey : List (String × Nat) → String → Nat → List (String × Nat)
  | [], k, c => [(k, c)]
  | (k', c') :: rest, k, c =>
    if keyLt k k' then (k, c) :: (k', c') :: rest
    else if k = k' then (k, c) :: rest
    else (k', c') :: insertKey rest k c

/-! ### The `Json` facade operations (explicit state passing) -/

/-- `Json::Json()`: `root(ObjectNode::proxy())` — a fresh empty object. -/
def jsonDefault (st : St) : St × Nat := newProxy st (.obj [])

/-- `Json::Json(const Json&)`: the copy constructor copies the `Proxy`,
which shares the outer cell — the copy *is* the same mutable slot. -/
def jsonCopy (j : Nat) : Nat := j

/-- `ObjectNode::operator[](std::string)`: `return children[key];` —
`std::map::operator[]` returns the existing slot, or default-constructs a
`Proxy<Node>` (a fresh cell holding a fresh base `Node`) and inserts it. -/
def objIndex (st : St) (nid : Nat) (kids : List (String × Nat)) (key : String) :
    St × Nat :=
  match findKey kids key with
  | some c => (st, c)
  | none =>
    let (st1, c) := newProxy st .base
    (setNode st1 nid (.obj (insertKey kids key c)), c)

/-- `Json::operator[](std::string)`: if the root is key-indexable, delegate to
`ObjectNode::operator[]`; otherwise return a fresh default `Json()` (an empty
object).  A dangling cell would be a null dereference in C++; it cannot occur
for handles produced by the library and we let it return `Json()` as well. -/
def jsonSubKey (st : St) (j : Nat) (key : String) : St × Nat :=
  match st.cells j with
  | some nid =>
    match st.nodes nid with
    | some (.obj kids) => objIndex st nid kids key
    | _ => jsonDefault st
  | none => jsonDefault st

/-- `ArrayNode::operator[](size_t)` reached through `Json::operator[](size_t)`:
in-range returns the stored child handle; out of range returns
`ValueNode::proxy()`, a fresh null leaf (default-constructed `ValueNode`),
without touching the array.  A non-indexable root yields a fresh default
`Json()`. -/
def jsonSubIdx (st : St) (j : Nat) (i : Nat) : St × Nat :=
  match st.cells j with
  | some nid =>
    match st.nodes nid with
    | some (.arr kids) =>
      if h : i < kids.length then (st, kids[i])
      else newProxy st (.leaf ⟨none, .unset⟩)
    | _ => jsonDefault st
  | none => jsonDefault st

/-- `Json::operator=(Json other)`: `root.reset(other.root)` — this handle's
cell now designates the same node as `other`'s cell. -/
def jsonAssignJson (st : St) (j other : Nat) : St :=
  match st.cells other with
  | some nid => setCell st j nid
  | none => st

/-- `Json::operator=(T value)` (and the string / bool overloads):
`root.reset(ValueNode::proxy(value))` — a temporary proxy around a fresh
`ValueNode` is built and this handle's cell is pointed at that node. -/
def jsonAssignVal (st : St) (j : Nat) (d : ValueData) : St :=
  let (st1, nid) := allocNode st (.leaf d)
  let (st2, _) := allocCell st1 nid
  setCell st2 j nid

/-- `ValueNode(T)` for a `ConvertibleToStdString` integer argument:
`_value = std::to_string(value)`, bare-numeric printer. -/
def valOfInt (s : String) : ValueData := ⟨some s, .num⟩

/-- `ValueNode(std::string)`: quoted printer. -/
def valOfString (s : String) : ValueData := ⟨some s, .strm⟩

/-- `ValueNode(bool)`: `_value = value ? "1" : "0"`, boolean printer. -/
def valOfBool (b : Bool) : ValueData := ⟨some (if b then "1" else "0"), .boolm⟩

/-! ### Deep copy (`Proxy::clone` / the polymorphic `Node::clone` overrides)

`Json::clone` calls `root.clone()`, which invokes the node's virtual `clone`
(a deep copy: `ObjectNode::clone` and `ArrayNode::clone` recursively clone
every child handle) and wraps the result in a brand-new cell.  Fuel bounds
the recursion depth. -/

mutual

/-- `Proxy<Node>::clone` on cell `c`. -/
def cloneCell : Nat → St → Nat → Option (St × Nat)
  | 0, _, _ => none
  | f + 1, st, c => do
    let nid ← st.cells c
    let nv ← st.nodes nid
    let (st1, nv') ← cloneNodeV f st nv
    let (st2, nid') := allocNode st1 nv'
    some (allocCell st2 nid')

/-- The virtual `Node::clone` overrides on node contents. -/
def cloneNodeV : Nat → St → NodeV → Option (St × NodeV)
  | 0, _, _ => none
  | _ + 1, st, .base => some (st, .base)
  | _ + 1, st, .leaf d => some (st, .leaf d)
  | f + 1, st, .obj kids => do
    let (st1, kids') ← cloneEntries f st kids
    some (st1, .obj kids')
  | f + 1, st, .arr kids => do
    let (st1, kids') ← cloneElems f st kids
    some (st1, .arr kids')

/-- The loop of `ObjectNode::clone`: iterates the sorted children map and
clones each child handle under its key. -/
def cloneEntries : Nat → St → List (String × Nat) →
    Option (St × List (String × Nat))
  | 0, _, _ => none
  | _ + 1, st, [] => some (st, [])
  | f + 1, st, (k, c) :: rest => do
    let (st1, c') ← cloneCell f st c
    let (st2, rest') ← cloneEntries f st1 rest
    some (st2, (k, c') :: rest')

/-- The loop of `ArrayNode::clone`. -/
def cloneElems : Nat → St → List Nat → Option (St × List Nat)
  | 0, _, _ => none
  | _ + 1, st, [] => some (st, [])
  | f + 1, st, c :: rest => do
    let (st1, c') ← cloneCell f st c
    let (st2, rest') ← cloneElems f st1 rest
    some (st2, c' :: rest')

end

/-- `Json::clone()`: `Json(root.clone())`. -/
def jsonClone (f : Nat) (st : St) (j : Nat) : Option (St × Nat) :=
  cloneCell f st j

/-! ### Literal construction

`Json` values are built from literals through `Json(T)`, `Json(std::string)`,
`Json(bool)`, the `initializer_list` constructor (which makes an
`ObjectNode` and, for each pair, lets `ObjectNode::operator[]` create the
slot and `reset`s it onto the pair's root node) and `Json::array` (which
makes an `ArrayNode` and `add_child`s each element's root handle). -/

/-- `object.as<ObjectNode>()->operator[](pair.first).reset(pair.second.root)`
for one pair of the `initializer_list` constructor. -/
def objAssignChild (st : St) (onid : Nat) (k : String) (childCell : Nat) : St :=
  match st.nodes onid with
  | some (.obj kids) =>
    let (st1, slot) := objIndex st onid kids k
    jsonAssignJson st1 slot childCell
  | _ => st

/-- `ArrayNode::add_child`: push the handle (the cell itself — `add_child`
takes the `Proxy` by value, sharing the outer cell). -/
def arrAddChild (st : St) (anid : Nat) (c : Nat) : St :=
  match st.nodes anid with
  | some (.arr cs) => setNode st anid (.arr (cs ++ [c]))
  | _ => st

/-! ### The pure tree abstraction

The parser and serializer do not depend on sharing: a parsed document is a
fresh tree, and `dump` observes only the tree shape.  `JTree` is the
abstraction of a `Json` node graph as a tree: leaves carry the `ValueNode`
data, objects carry their (sorted) key/child map, arrays their children in
order. -/

inductive JTree where
  | leaf (v : Option String) (m : PMode)
  | obj (kids : List (String × JTree))
  | arr (kids : List JTree)
deriving Repr

mutual

/-- The serializer on trees: exactly the `dump` overrides of
`ValueNode` / `ObjectNode` / `ArrayNode`. -/
def dumpT : JTree → String
  | .leaf v m => dumpLeaf ⟨v, m⟩
  | .obj kids => "\x7b" ++ dumpTEntries kids ++ "\x7d"
  | .arr kids => "[" ++ dumpTElems kids ++ "]"

/-- Member loop of `ObjectNode::dump` on trees. -/
def dumpTEntries : List (String × JTree) → String
  | [] => ""
  | (k, t) :: rest =>
    "\"" ++ k ++ "\": " ++ dumpT t ++ (if rest.isEmpty then "" else ", ") ++
      dumpTEntries rest

/-- Element loop of `ArrayNode::dump` on trees. -/
def dumpTElems : List JTree → String
  | [] => ""
  | t :: rest =>
    dumpT t ++ (if rest.isEmpty then "" else ", ") ++ dumpTElems rest

end

/-! ### The parser (`Json::parse_str` and helpers)

`parse_str` first strips whitespace outside quoted strings, then runs the
recursive-descent routine over a cursor.  We model the cursor by passing the
remaining character list and returning the unread remainder.  Errors:
`malformed` is a thrown `MalformedJson`; `outOfRange` is the
`std::out_of_range` that `std::stol` raises (uncaught) for an integer literal
exceeding `LONG_MAX`; `offEnd` marks the parser running past the end of the
buffer, which is undefined behavior in C++ (`std::string::operator[]` beyond
`size()`) and unreachable on the inputs our theorems consider; `fuelOut` is
exhaustion of the fuel that makes the recursion structural (the fuel chosen
by `parseStr` is always sufficient). -/

inductive PErr where
  | malformed
  | outOfRange
  | offEnd
  | fuelOut
deriving DecidableEq, Repr

/-- `std::isspace` in the default C locale. -/
def isSpace (c : Char) : Bool :=
  c = ' ' || c = '\t' || c = '\n' || c = '\x0b' || c = '\x0c' || c = '\r'

/-- The whitespace-stripping pre-pass of `Json::parse_str`: drops whitespace,
except inside quoted strings; the `inside` flag is toggled on each `"` before
the whitespace test. -/
def stripAux : List Char → Bool → List Char
  | [], _ => []
  | c :: rest, inside =>
    let inside' := if c = '"' then !inside else inside
    if isSpace c && !inside' then stripAux rest inside'
    else c :: stripAux rest inside'

/-- The string-scanning loop `while (json[index] != '"') ...; ++index`:
returns the characters before the closing quote and the remainder after it,
or `none` if the buffer ends first (the C++ loop would run off the end). -/
def splitAtQuote : List Char → Option (List Char × List Char)
  | [] => none
  | c :: rest =>
    if c = '"' then some ([], rest)
    else do
      let (a, b) ← splitAtQuote rest
      some (c :: a, b)

/-- `LONG_MAX` for the 64-bit `long` of the reference platform. -/
def LONGMAX : Nat := 2 ^ 63 - 1

/-- Decimal digit character for `std::to_string` of a non-negative value. -/
def digitChar : Nat → Char
  | 0 => '0'
  | 1 => '1'
  | 2 => '2'
  | 3 => '3'
  | 4 => '4'
  | 5 => '5'
  | 6 => '6'
  | 7 => '7'
  | 8 => '8'
  | 9 => '9'
  | _ => '0'

/-- Decimal digit characters of `n`, most-significant first, accumulated onto
`acc`; the fuel argument (any bound above `n`) makes the recursion
structural. -/
def natStrAux : Nat → Nat → List Char → List Char
  | 0, _, acc => acc
  | f + 1, n, acc =>
    if n = 0 then acc
    else natStrAux f (n / 10) (digitChar (n % 10) :: acc)

/-- `std::to_string` on a non-negative integer: its decimal digits,
most-significant first. -/
def natStr (n : Nat) : String :=
  if n = 0 then "0" else ⟨natStrAux (n + 1) n []⟩

/-- Model of `std::to_string(std::stof(s))` for the float branch of
`parse_value`, treating the numeric-conversion library functions as given
primitives (the spec scopes them out).  `stof` consumes digits, one point and
following digits; `std::to_string` prints six fractional digits.  We print
the exact decimal value, truncated/zero-padded to six fractional digits;
binary-float rounding and `stof`'s overflow are not modeled.  No theorem in
this development depends on this branch. -/
def floatPrint (run : List Char) : List Char :=
  let ip := run.takeWhile isNum
  let rest := run.drop ip.length
  let fp := if rest.head? = some '.' then (rest.drop 1).takeWhile isNum else []
  (natStr (digitsVal ip)).data ++ '.' ::
    (fp.take 6 ++ List.replicate (6 - (fp.take 6).length) '0')

/-- `Json::parse_value`: `true` / `false` by substring comparison (the
`substr` clamping at the end of the buffer is exactly `List.take`), then a
maximal run of digits and points (a point selects the float parse, otherwise
`std::stol`, whose result is re-rendered by the `Json(long)` constructor
through `std::to_string`), then a quoted string, else `MalformedJson`.  An
empty remainder behaves as the `'\0'` read at `size()` in C++: it fails all
the literal tests and throws. -/
def parseValue (cs : List Char) : Except PErr (JTree × List Char) :=
  if cs.take 4 = "true".data then .ok (.leaf (some "1") .boolm, cs.drop 4)
  else if cs.take 5 = "false".data then .ok (.leaf (some "0") .boolm, cs.drop 5)
  else
    match cs with
    | [] => .error .malformed
    | c :: _ =>
      if isNum c then
        let run := cs.takeWhile (fun ch => ch = '.' || isNum ch)
        let rest := cs.drop run.length
        if run.contains '.' then
          .ok (.leaf (some (String.mk (floatPrint run))) .num, rest)
        else if digitsVal run > LONGMAX then .error .outOfRange
        else .ok (.leaf (some (natStr (digitsVal run))) .num, rest)
      else if c = '"' then
        match splitAtQuote (cs.drop 1) with
        | some (s, r) => .ok (.leaf (some (String.mk s)) .strm, r)
        | none => .error .offEnd
      else .error .malformed

/-- `object[key] = value` in `Json::parse_object`, abstracted to trees:
`std::map` keeps keys sorted; assigning an existing key resets the existing
child slot in place. -/
def insertT : List (String × JTree) → String → JTree → List (String × JTree)
  | [], k, v => [(k, v)]
  | (k', v') :: rest, k, v =>
    if keyLt k k' then (k, v) :: (k', v') :: rest
    else if k = k' then (k, v) :: rest
    else (k', v') :: insertT rest k v

mutual

/-- `Json::parse_recursively`: dispatch on the lookahead character. -/
def parseRec : Nat → List Char → Except PErr (JTree × List Char)
  | 0, _ => .error .fuelOut
  | f + 1, cs =>
    if cs.head? = some '{' then parseObject f [] (cs.drop 1)
    else if cs.head? = some '[' then parseArray f [] (cs.drop 1)
    else parseValue cs

/-- The member loop of `Json::parse_object` (the opening brace is already
consumed; `acc` is the object built so far).  A key must open with a quote or
`MalformedJson` is thrown; the colon after the key and the comma after a
value are skipped without being checked. -/
def parseObject : Nat → List (String × JTree) → List Char →
    Except PErr (JTree × List Char)
  | 0, _, _ => .error .fuelOut
  | f + 1, acc, cs =>
    match cs with
    | [] => .error .offEnd
    | c :: rest =>
      if c = '}' then .ok (.obj acc, rest)
      else if c = '"' then
        match splitAtQuote rest with
        | none => .error .offEnd
        | some (key, r1) =>
          match parseRec f (r1.drop 1) with
          | .error e => .error e
          | .ok (v, r2) =>
            let r3 := if r2.head? = some '}' then r2 else r2.drop 1
            parseObject f (insertT acc (String.mk key) v) r3
      else .error .malformed

/-- The element loop of `Json::parse_array` (opening bracket consumed). -/
def parseArray : Nat → List JTree → List Char →
    Except PErr (JTree × List Char)
  | 0, _, _ => .error .fuelOut
  | f + 1, acc, cs =>
    match cs with
    | [] => .error .offEnd
    | c :: rest =>
      if c = ']' then .ok (.arr acc, rest)
      else
        match parseRec f (c :: rest) with
        | .error e => .error e
        | .ok (v, r1) =>
          let r2 := if r1.head? = some ']' then r1 else r1.drop 1
          parseArray f (acc ++ [v]) r2

end

/-- `Json::parse_str`: strip whitespace outside strings, then parse from the
start; trailing unread characters are ignored, as in the source.  The fuel
`length + 1` dominates the recursion depth because every recursive call
strictly consumes input. -/
def parseStr (s : String) : Except PErr JTree :=
  let cleaned := stripAux s.data false
  match parseRec (cleaned.length + 1) cleaned with
  | .ok (t, _) => .ok t
  | .error e => .error e

mutual

/-- Build the heap value of a literal tree: leaves through `ValueNode::proxy`,
objects through the `initializer_list` constructor, arrays through
`Json::array`.  Returns the root handle. -/
def buildLit : St → JTree → St × Nat
  | st, .leaf v m => newProxy st (.leaf ⟨v, m⟩)
  | st, .obj kids =>
    let (st1, onid) := allocNode st (.obj [])
    let (st2, oc) := allocCell st1 onid
    (buildObjPairs st2 onid kids, oc)
  | st, .arr kids =>
    let (st1, anid) := allocNode st (.arr [])
    let (st2, ac) := allocCell st1 anid
    (buildArrElems st2 anid kids, ac)

/-- The pair loop of `Json(std::initializer_list<std::pair<std::string, Json>>)`. -/
def buildObjPairs : St → Nat → List (String × JTree) → St
  | st, _, [] => st
  | st, onid, (k, t) :: rest =>
    let (st1, cc) := buildLit st t
    buildObjPairs (objAssignChild st1 onid k cc) onid rest

/-- The element loop of `Json::array`. -/
def buildArrElems : St → Nat → List JTree → St
  | st, _, [] => st
  | st, anid, t :: rest =>
    let (st1, cc) := buildLit st t
    buildArrElems (arrAddChild st1 anid cc) anid rest

end

/-! ### Typed extraction (`Json::to<T>`)

`to<long>` reads the leaf's stored text and runs `std::stol` inside a `try`
block that catches **only** `std::invalid_argument`; the result is first
stored in a `std::optional<int>` (a C++20-defined modulo-2³² narrowing) and
then widened back for the `std::optional<long>` return. -/

/-- Result of `std::stol` (base 10): leading whitespace skipped, an optional
sign, then a mandatory digit run; `invalidArg` when no digits follow,
`outOfRange` when the value does not fit in the 64-bit `long`. -/
inductive StolRes where
  | ok (v : Int)
  | invalidArg
  | outOfRange
deriving DecidableEq, Repr

/-- Model of `std::stol(s)` on the reference platform (64-bit `long`),
treated as a given primitive by the spec. -/
def stolModel (s : String) : StolRes :=
  let cs := s.data.dropWhile isSpace
  let signed : Bool × List Char :=
    match cs with
    | '-' :: rest => (true, rest)
    | '+' :: rest => (false, rest)
    | _ => (false, cs)
  let digs := signed.2.takeWhile isNum
  if digs.isEmpty then .invalidArg
  else
    let v : Int := (if signed.1 then -1 else 1) * (digitsVal digs : Int)
    if v < -(2 ^ 63) ∨ 2 ^ 63 - 1 < v then .outOfRange else .ok v

/-- The C++20 value-preserving-modulo-2³² conversion of a `long` to `int`,
applied when `to<long>` stores `std::stol`'s result into its
`std::optional<int>` local. -/
def wrapInt32 (v : Int) : Int := (v + 2 ^ 31) % 2 ^ 32 - 2 ^ 31

/-- `Json::to<long>`: absent unless the root is a leaf with a present value;
`std::invalid_argument` from `std::stol` is caught and swallowed, but
`std::out_of_range` is not caught and escapes to the caller (modeled as
`.error ()`). -/
def jsonToLong (st : St) (j : Nat) : Except Unit (Option Int) :=
  match derefNode st j with
  | some (.leaf d) =>
    match d.value with
    | some s =>
      match stolModel s with
      | .ok v => .ok (some (wrapInt32 v))
      | .invalidArg => .ok none
      | .outOfRange => .error ()
    | none => .ok none
  | _ => .ok none

/-- `Json::to<std::string>`: the stored optional text of a leaf root, absent
otherwise; performs no conversion and cannot throw. -/
def jsonToString (st : St) (j : Nat) : Option String :=
  match derefNode st j with
  | some (.leaf d) => d.value
  | _ => none

/-! ### Key-then-assign write sequences

`json[k] = v` on an object root is `Json::operator[](std::string)` followed
by the value-assignment `Json::operator=`.  `runWrites` performs a sequence
of such writes; the pure functions `mapInsertV` / `insertVals` /
`renderVals` mirror what `std::map` plus `ObjectNode::dump` produce. -/

/-- One write `j[k] = v` followed by the rest. -/
def runWrites : St → Nat → List (String × ValueData) → St
  | st, _, [] => st
  | st, j, (k, v) :: rest =>
    let (st1, ch) := jsonSubKey st j k
    runWrites (jsonAssignVal st1 ch v) j rest

/-- The `std::map` ordered insert-or-assign at the value level. -/
def mapInsertV : List (String × ValueData) → String → ValueData →
    List (String × ValueData)
  | [], k, v => [(k, v)]
  | (k', v') :: rest, k, v =>
    if keyLt k k' then (k, v) :: (k', v') :: rest
    else if k = k' then (k, v) :: rest
    else (k', v') :: mapInsertV rest k v

/-- The value map resulting from a write sequence applied to an empty
object. -/
def insertVals (ws : List (String × ValueData)) : List (String × ValueData) :=
  ws.foldl (fun acc kv => mapInsertV acc kv.1 kv.2) []

/-- The member rendering of `ObjectNode::dump` on a map of leaf values:
`"key": value` joined by `", "`, no trailing comma. -/
def renderVals : List (String × ValueData) → String
  | [] => ""
  | (k, v) :: rest =>
    "\"" ++ k ++ "\": " ++ dumpLeaf v ++ (if rest.isEmpty then "" else ", ") ++
      renderVals rest

/-- The correspondence between an object's children map (cells) and a pure
value map: keys agree positionally, every slot cell is allocated, distinct
from the object's root cell `0` and from the later slots, and holds the leaf
value recorded in the pure map. -/
def SlotsOk : St → List (String × Nat) → List (String × ValueData) → Prop
  | _, [], [] => True
  | st, (k, c) :: rest, (k', v) :: rest' =>
    k = k' ∧ c ≠ 0 ∧ c < st.nextCell ∧ derefNode st c = some (.leaf v) ∧
    c ∉ rest.map Prod.snd ∧ SlotsOk st rest rest'
  | _, _, _ => False

/-! ### Mutation programs

A mutation of a `Json` value, as the public API allows it: navigate by a
chain of subscripts and then assign — either a primitive
(`operator=(T)` / string / bool overloads) or a freshly constructed literal
`Json` value (`operator=(Json)` where the right-hand side is a new literal,
not an alias of existing data). -/

/-- One subscript step. -/
inductive MStep where
  | key (k : String)
  | idx (i : Nat)

/-- One mutation statement. -/
inductive Mut where
  | assignVal (path : List MStep) (d : ValueData)
  | assignLit (path : List MStep) (t : JTree)

/-- Chained subscripts from a handle. -/
def navigate : St → Nat → List MStep → St × Nat
  | st, c, [] => (st, c)
  | st, c, .key k :: rest =>
    let (st1, c1) := jsonSubKey st c k
    navigate st1 c1 rest
  | st, c, .idx i :: rest =>
    let (st1, c1) := jsonSubIdx st c i
    navigate st1 c1 rest

/-- Run one mutation from handle `c`. -/
def runMut (st : St) (c : Nat) : Mut → St
  | .assignVal path d =>
    let (st1, c1) := navigate st c path
    jsonAssignVal st1 c1 d
  | .assignLit path t =>
    let (st1, c1) := navigate st c path
    let (st2, r) := buildLit st1 t
    jsonAssignJson st2 c1 r

/-- Run a sequence of mutations from handle `c`. -/
def runMuts (st : St) (c : Nat) : List Mut → St
  | [] => st
  | mu :: rest => runMuts (runMut st c mu) c rest

/-- The id region at or above the marks `n₀c` / `n₀n` is closed: high cells
designate high nodes, and high nodes have only high child cells.  The region
freshly built by `clone` satisfies this, and operations through a high
handle keep it closed. -/
def FrameSt (nc nn : Nat) (st : St) : Prop :=
  nc ≤ st.nextCell ∧ nn ≤ st.nextNode ∧
  (∀ c nid, nc ≤ c → st.cells c = some nid → nn ≤ nid) ∧
  (∀ nid nv, nn ≤ nid → st.nodes nid = some nv → ∀ c ∈ nv.childCells, nc ≤ c)

/-- Evolution that leaves every id below the marks untouched. -/
def StepOk (nc nn : Nat) (st st' : St) : Prop :=
  (∀ x, x < nc → st'.cells x = st.cells x) ∧
  (∀ x, x < nn → st'.nodes x = st.nodes x)

/-! ### Store well-formedness

Allocation counters dominate every id stored anywhere.  Every state reachable
through the library's operations satisfies this. -/

/-- Well-formedness of a store: every allocated id is below its counter, and
nodes reference only allocated-range cells. -/
def Good (st : St) : Prop :=
  (∀ c nid, st.cells c = some nid → c < st.nextCell ∧ nid < st.nextNode) ∧
  (∀ nid nv, st.nodes nid = some nv → nid < st.nextNode ∧
    ∀ c ∈ nv.childCells, c < st.nextCell)

/-! ### The supported round-trip fragment

The spec's round-trip law quantifies over trees "built purely from supported
literal forms".  `supportedB` delimits the fragment on which the law can
hold: string leaves whose text contains no quote character (the serializer
does not escape), boolean leaves exactly as `Json(bool)` stores them,
numeric leaves holding a canonical nonnegative decimal within `LONG_MAX`
(what `Json(long)` stores for such values and what `parse_value`
re-produces via `std::stol` / `std::to_string`), objects with quote-free
strictly sorted keys, arrays of supported elements.  Negative integers
(`Json(-1)` stores `"-1"`) and decimals are outside: the parser rejects a
leading minus sign, and float re-rendering is not text-preserving. -/

/-- `std::to_string` on a C++ integer, as the `Json(T)` integral
constructors store it: optional minus sign, then decimal digits. -/
def intStr (i : Int) : String :=
  if i < 0 then "-" ++ natStr i.natAbs else natStr i.toNat

/-- A canonical nonnegative decimal integer text within `LONG_MAX`: the
texts fixed by `std::to_string ∘ std::stol`. -/
def canonNum (s : String) : Bool :=
  decide (digitsVal s.data ≤ LONGMAX) && (s == natStr (digitsVal s.data))

mutual

/-- The supported literal fragment of the round-trip law. -/
def supportedB : JTree → Bool
  | .leaf (some s) .strm => decide ('"' ∉ s.data)
  | .leaf (some s) .boolm => s == "1" || s == "0"
  | .leaf (some s) .num => canonNum s
  | .leaf _ _ => false
  | .obj kids => supportedEntries kids
  | .arr kids => supportedElems kids

/-- Member-list side of `supportedB`: quote-free keys, strictly increasing
in `std::map` order, supported children. -/
def supportedEntries : List (String × JTree) → Bool
  | [] => true
  | (k, t) :: rest =>
    decide ('"' ∉ k.data) && supportedB t && supportedEntries rest &&
      (match rest with
       | [] => true
       | (k2, _) :: _ => keyLt k k2)

/-- Element-list side of `supportedB`. -/
def supportedElems : List JTree → Bool
  | [] => true
  | t :: rest => supportedB t && supportedElems rest

end

mutual

/-- The serialized text of a tree with the inter-token whitespace already
removed: exactly what the `parse_str` pre-pass leaves of the `dump` output
on the supported fragment. -/
def cleanDump : JTree → List Char
  | .leaf v m => (dumpLeaf ⟨v, m⟩).data
  | .obj kids => '\x7b' :: (cleanEntries kids ++ ['\x7d'])
  | .arr kids => '[' :: (cleanElems kids ++ [']'])

/-- Member-list side of `cleanDump`. -/
def cleanEntries : List (String × JTree) → List Char
  | [] => []
  | (k, t) :: rest =>
    '"' :: (k.data ++ '"' :: ':' ::
      (cleanDump t ++ (if rest.isEmpty then [] else [',']) ++
        cleanEntries rest))

/-- Element-list side of `cleanDump`. -/
def cleanElems : List JTree → List Char
  | [] => []
  | t :: rest =>
    cleanDump t ++ (if rest.isEmpty then [] else [',']) ++ cleanElems rest

end

/-- Shape of the unread remainder at every recursive return site of the
parser on clean input: empty, or opening with a separator or closer. -/
def RestOk (r : List Char) : Prop :=
  r = [] ∨ ∃ c r', r = c :: r' ∧ (c = ',' ∨ c = '\x7d' ∨ c = ']')

/-! ## Theorems -/

@[simp] theorem allocNode_nextCell (st : St) (nv : NodeV) :
    (allocNode st nv).1.nextCell = st.nextCell := rfl
@[simp] theorem allocNode_nextNode (st : St) (nv : NodeV) :
    (allocNode st nv).1.nextNode = st.nextNode + 1 := rfl
@[simp] theorem allocNode_cells (st : St) (nv : NodeV) :
    (allocNode st nv).1.cells = st.cells := rfl
@[simp] theorem allocNode_snd (st : St) (nv : NodeV) :
    (allocNode st nv).2 = st.nextNode := rfl
theorem allocNode_nodes (st : St) (nv : NodeV) (i : Nat) :
    (allocNode st nv).1.nodes i =
      if i = st.nextNode then some nv else st.nodes i := rfl
@[simp] theorem allocCell_nextCell (st : St) (nid : Nat) :
    (allocCell st nid).1.nextCell = st.nextCell + 1 := rfl
@[simp] theorem allocCell_nextNode (st : St) (nid : Nat) :
    (allocCell st nid).1.nextNode = st.nextNode := rfl
@[simp] theorem allocCell_nodes (st : St) (nid : Nat) :
    (allocCell st nid).1.nodes = st.nodes := rfl
@[simp] theorem allocCell_snd (st : St) (nid : Nat) :
    (allocCell st nid).2 = st.nextCell := rfl
theorem allocCell_cells (st : St) (nid : Nat) (i : Nat) :
    (allocCell st nid).1.cells i =
      if i = st.nextCell then some nid else st.cells i := rfl
@[simp] theorem setCell_nextCell (st : St) (c nid : Nat) :
    (setCell st c nid).nextCell = st.nextCell := rfl
@[simp] theorem setCell_nextNode (st : St) (c nid : Nat) :
    (setCell st c nid).nextNode = st.nextNode := rfl
@[simp] theorem setCell_nodes (st : St) (c nid : Nat) :
    (setCell st c nid).nodes = st.nodes := rfl
theorem setCell_cells (st : St) (c nid : Nat) (i : Nat) :
    (setCell st c nid).cells i =
      if i = c then some nid else st.cells i := rfl
@[simp] theorem setNode_nextCell (st : St) (nid : Nat) (nv : NodeV) :
    (setNode st nid nv).nextCell = st.nextCell := rfl
@[simp] theorem setNode_nextNode (st : St) (nid : Nat) (nv : NodeV) :
    (setNode st nid nv).nextNode = st.nextNode := rfl
@[simp] theorem setNode_cells (st : St) (nid : Nat) (nv : NodeV) :
    (setNode st nid nv).cells = st.cells := rfl
theorem setNode_nodes (st : St) (nid : Nat) (nv : NodeV) (i : Nat) :
    (setNode st nid nv).nodes i =
      if i = nid then some nv else st.nodes i := rfl
@[simp] theorem newProxy_nextCell (st : St) (nv : NodeV) :
    (newProxy st nv).1.nextCell = st.nextCell + 1 := rfl
@[simp] theorem newProxy_nextNode (st : St) (nv : NodeV) :
    (newProxy st nv).1.nextNode = st.nextNode + 1 := rfl
@[simp] theorem newProxy_snd (st : St) (nv : NodeV) :
    (newProxy st nv).2 = st.nextCell := rfl
theorem newProxy_cells (st : St) (nv : NodeV) (i : Nat) :
    (newProxy st nv).1.cells i =
      if i = st.nextCell then some st.nextNode else st.cells i := rfl
theorem newProxy_nodes (st : St) (nv : NodeV) (i : Nat) :
    (newProxy st nv).1.nodes i =
      if i = st.nextNode then some nv else st.nodes i := rfl

theorem good_empty : Good St.empty := by
  constructor <;> intro a b h <;> simp [St.empty] at h

theorem good_allocNode {st : St} {nv : NodeV} (hg : Good st)
    (hnv : ∀ c ∈ nv.childCells, c < st.nextCell) :
    Good (allocNode st nv).1 := by
  obtain ⟨hc, hn⟩ := hg
  constructor
  · intro c nid h
    rw [allocNode_cells] at h
    rw [allocNode_nextCell, allocNode_nextNode]
    have := hc c nid h
    omega
  · intro nid nv' h
    rw [allocNode_nodes] at h
    simp only [allocNode_nextCell, allocNode_nextNode]
    by_cases hi : nid = st.nextNode
    · subst hi
      rw [if_pos rfl] at h
      cases h
      exact ⟨by omega, hnv⟩
    · rw [if_neg hi] at h
      have := hn nid nv' h
      exact ⟨by omega, this.2⟩

theorem good_allocCell {st : St} {nid : Nat} (hg : Good st)
    (hn : nid < st.nextNode) :
    Good (allocCell st nid).1 := by
  obtain ⟨hc, hno⟩ := hg
  constructor
  · intro c nid' h
    rw [allocCell_cells] at h
    simp only [allocCell_nextCell, allocCell_nextNode]
    by_cases hi : c = st.nextCell
    · subst hi
      rw [if_pos rfl] at h
      cases h
      omega
    · rw [if_neg hi] at h
      have := hc c nid' h
      omega
  · intro nid' nv h
    rw [allocCell_nodes] at h
    simp only [allocCell_nextCell, allocCell_nextNode]
    have := hno nid' nv h
    exact ⟨this.1, fun c hcin => by have := this.2 c hcin; omega⟩

theorem good_newProxy {st : St} {nv : NodeV} (hg : Good st)
    (hnv : ∀ c ∈ nv.childCells, c < st.nextCell) :
    Good (newProxy st nv).1 := by
  have h1 := good_allocNode hg hnv
  have h2 := @good_allocCell _ ((allocNode st nv).2) h1
    (by rw [allocNode_snd, allocNode_nextNode]; omega)
  exact h2

theorem good_setCell {st : St} {c nid : Nat} (hg : Good st)
    (hc : c < st.nextCell) (hn : nid < st.nextNode) :
    Good (setCell st c nid) := by
  obtain ⟨hcs, hns⟩ := hg
  constructor
  · intro c' nid' h
    rw [setCell_cells] at h
    simp only [setCell_nextCell, setCell_nextNode]
    by_cases hi : c' = c
    · subst hi
      rw [if_pos rfl] at h
      cases h
      omega
    · rw [if_neg hi] at h
      exact hcs c' nid' h
  · intro nid' nv h
    rw [setCell_nodes] at h
    simp only [setCell_nextCell, setCell_nextNode]
    exact hns nid' nv h

theorem good_setNode {st : St} {nid : Nat} {nv : NodeV} (hg : Good st)
    (hn : nid < st.nextNode) (hnv : ∀ c ∈ nv.childCells, c < st.nextCell) :
    Good (setNode st nid nv) := by
  obtain ⟨hcs, hns⟩ := hg
  constructor
  · intro c' nid' h
    rw [setNode_cells] at h
    simp only [setNode_nextCell, setNode_nextNode]
    exact hcs c' nid' h
  · intro nid' nv' h
    rw [setNode_nodes] at h
    simp only [setNode_nextCell, setNode_nextNode]
    by_cases hi : nid' = nid
    · subst hi
      rw [if_pos rfl] at h
      cases h
      exact ⟨hn, hnv⟩
    · rw [if_neg hi] at h
      exact hns nid' nv' h

theorem findKey_insertKey (kids : List (String × Nat)) (k : String) (c : Nat) :
    findKey (insertKey kids k c) k = some c := by
  induction kids with
  | nil => simp [insertKey, findKey]
  | cons kv rest ih =>
    obtain ⟨k', c'⟩ := kv
    simp only [insertKey]
    by_cases h1 : keyLt k k' = true
    · rw [if_pos h1]
      simp [findKey]
    · rw [if_neg h1]
      by_cases h2 : k = k'
      · rw [if_pos h2]
        simp [findKey]
      · rw [if_neg h2]
        simp only [findKey, if_neg h2, ih]

theorem good_jsonAssignJson {st : St} {j other : Nat} (hg : Good st)
    (hj : j < st.nextCell) : Good (jsonAssignJson st j other) := by
  unfold jsonAssignJson
  cases h : st.cells other with
  | none => exact hg
  | some nid => exact good_setCell hg hj (hg.1 other nid h).2

theorem jsonAssignJson_nextCell (st : St) (j other : Nat) :
    (jsonAssignJson st j other).nextCell = st.nextCell := by
  unfold jsonAssignJson
  cases st.cells other <;> rfl

theorem jsonAssignJson_nextNode (st : St) (j other : Nat) :
    (jsonAssignJson st j other).nextNode = st.nextNode := by
  unfold jsonAssignJson
  cases st.cells other <;> rfl

theorem arrAddChild_nextCell (st : St) (anid c : Nat) :
    (arrAddChild st anid c).nextCell = st.nextCell := by
  unfold arrAddChild
  cases st.nodes anid with
  | none => rfl
  | some nv => cases nv <;> rfl

theorem arrAddChild_nextNode (st : St) (anid c : Nat) :
    (arrAddChild st anid c).nextNode = st.nextNode := by
  unfold arrAddChild
  cases st.nodes anid with
  | none => rfl
  | some nv => cases nv <;> rfl

theorem findKey_mem_snd {kids : List (String × Nat)} {k : String} {slot : Nat}
    (hf : findKey kids k = some slot) : slot ∈ kids.map Prod.snd := by
  induction kids with
  | nil => simp [findKey] at hf
  | cons kv rest ih =>
    obtain ⟨k', c0⟩ := kv
    simp only [findKey] at hf
    by_cases h2 : k = k'
    · rw [if_pos h2] at hf
      cases hf
      rw [List.map_cons]
      exact List.mem_cons_self _ _
    · rw [if_neg h2] at hf
      rw [List.map_cons]
      exact List.mem_cons_of_mem _ (ih hf)

theorem objAssignChild_nextCell_ge (st : St) (onid : Nat) (k : String) (cc : Nat) :
    (objAssignChild st onid k cc).nextCell ≥ st.nextCell := by
  unfold objAssignChild
  cases st.nodes onid with
  | none => exact le_refl _
  | some nv =>
    cases nv with
    | base => exact le_refl _
    | leaf d => exact le_refl _
    | arr kids => exact le_refl _
    | obj kids =>
      simp only [objIndex]
      cases findKey kids k with
      | some slot => rw [jsonAssignJson_nextCell]
      | none =>
        rw [jsonAssignJson_nextCell]
        simp

theorem objAssignChild_nextNode_ge (st : St) (onid : Nat) (k : String) (cc : Nat) :
    (objAssignChild st onid k cc).nextNode ≥ st.nextNode := by
  unfold objAssignChild
  cases st.nodes onid with
  | none => exact le_refl _
  | some nv =>
    cases nv with
    | base => exact le_refl _
    | leaf d => exact le_refl _
    | arr kids => exact le_refl _
    | obj kids =>
      simp only [objIndex]
      cases findKey kids k with
      | some slot => rw [jsonAssignJson_nextNode]
      | none =>
        rw [jsonAssignJson_nextNode]
        simp

theorem insertKey_childMem {kids : List (String × Nat)} {k : String} {c c' : Nat}
    (h : c' ∈ (insertKey kids k c).map Prod.snd) :
    c' ∈ kids.map Prod.snd ∨ c' = c := by
  induction kids with
  | nil => simp [insertKey] at h; tauto
  | cons kv rest ih =>
    obtain ⟨k', c0⟩ := kv
    simp only [insertKey] at h
    by_cases h1 : keyLt k k' = true
    · rw [if_pos h1] at h
      simp at h
      simp
      tauto
    · rw [if_neg h1] at h
      by_cases h2 : k = k'
      · rw [if_pos h2] at h
        simp at h
        simp
        tauto
      · rw [if_neg h2] at h
        simp at h
        rcases h with h | h
        · simp [h]
        · rcases ih (by simpa using h) with h' | h'
          · simp at h'
            simp
            tauto
          · tauto

theorem good_objAssignChild {st : St} {onid : Nat} {k : String} {cc : Nat}
    (hg : Good st) : Good (objAssignChild st onid k cc) := by
  unfold objAssignChild
  cases hn : st.nodes onid with
  | none => exact hg
  | some nv =>
    cases nv with
    | base => exact hg
    | leaf d => exact hg
    | arr kids => exact hg
    | obj kids =>
      have honid : onid < st.nextNode := (hg.2 onid _ hn).1
      have hkids : ∀ c ∈ (NodeV.obj kids).childCells, c < st.nextCell :=
        (hg.2 onid _ hn).2
      simp only [objIndex]
      cases hf : findKey kids k with
      | some slot =>
        have hslot : slot < st.nextCell :=
          hkids slot (by simpa [NodeV.childCells] using findKey_mem_snd hf)
        exact good_jsonAssignJson hg hslot
      | none =>
        have hg1 : Good (newProxy st .base).1 :=
          good_newProxy hg (by simp [NodeV.childCells])
        have hg2 : Good (setNode (newProxy st .base).1 onid
            (.obj (insertKey kids k (newProxy st .base).2))) := by
          apply good_setNode hg1 (by simp; omega)
          intro c hc
          simp only [NodeV.childCells] at hc
          rcases insertKey_childMem hc with h' | h'
          · have := hkids c (by simpa [NodeV.childCells] using h')
            simp
            omega
          · simp [h']
        exact good_jsonAssignJson hg2 (by simp)

theorem good_arrAddChild {st : St} {anid : Nat} {c : Nat} (hg : Good st)
    (hc : c < st.nextCell) : Good (arrAddChild st anid c) := by
  unfold arrAddChild
  cases hn : st.nodes anid with
  | none => exact hg
  | some nv =>
    cases nv with
    | base => exact hg
    | leaf d => exact hg
    | obj kids => exact hg
    | arr kids =>
      apply good_setNode hg (hg.2 anid _ hn).1
      intro c' hc'
      simp only [NodeV.childCells] at hc'
      rcases List.mem_append.mp hc' with h' | h'
      · exact (hg.2 anid _ hn).2 c' (by simpa [NodeV.childCells] using h')
      · simp at h'
        omega

mutual

theorem good_buildLit (t : JTree) (st : St) (hg : Good st) :
    Good (buildLit st t).1 ∧ st.nextCell ≤ (buildLit st t).1.nextCell ∧
    st.nextNode ≤ (buildLit st t).1.nextNode ∧
    (buildLit st t).2 < (buildLit st t).1.nextCell := by
  cases t with
  | leaf v m =>
    simp only [buildLit]
    refine ⟨good_newProxy hg (by simp [NodeV.childCells]), by simp, by simp, by simp⟩
  | obj kids =>
    simp only [buildLit]
    have h1 : Good (allocNode st (.obj [])).1 :=
      good_allocNode hg (by simp [NodeV.childCells])
    have h2 : Good (allocCell (allocNode st (.obj [])).1 (allocNode st (.obj [])).2).1 :=
      good_allocCell h1 (by simp)
    have h3 := good_buildObjPairs kids _ (allocNode st (.obj [])).2 h2
    refine ⟨h3.1, ?_, ?_, ?_⟩
    · have := h3.2.1; simp at this ⊢; omega
    · have := h3.2.2; simp at this ⊢; omega
    · have := h3.2.1; simp at this ⊢; omega
  | arr kids =>
    simp only [buildLit]
    have h1 : Good (allocNode st (.arr [])).1 :=
      good_allocNode hg (by simp [NodeV.childCells])
    have h2 : Good (allocCell (allocNode st (.arr [])).1 (allocNode st (.arr [])).2).1 :=
      good_allocCell h1 (by simp)
    have h3 := good_buildArrElems kids _ (allocNode st (.arr [])).2 h2
    refine ⟨h3.1, ?_, ?_, ?_⟩
    · have := h3.2.1; simp at this ⊢; omega
    · have := h3.2.2; simp at this ⊢; omega
    · have := h3.2.1; simp at this ⊢; omega

theorem good_buildObjPairs (kids : List (String × JTree)) (st : St) (onid : Nat)
    (hg : Good st) :
    Good (buildObjPairs st onid kids) ∧
    st.nextCell ≤ (buildObjPairs st onid kids).nextCell ∧
    st.nextNode ≤ (buildObjPairs st onid kids).nextNode := by
  cases kids with
  | nil => exact ⟨hg, le_refl _, le_refl _⟩
  | cons kv rest =>
    obtain ⟨k, t⟩ := kv
    simp only [buildObjPairs]
    have h1 := good_buildLit t st hg
    have h2 : Good (objAssignChild (buildLit st t).1 onid k (buildLit st t).2) :=
      good_objAssignChild h1.1
    have h3 := good_buildObjPairs rest _ onid h2
    have e1 : (objAssignChild (buildLit st t).1 onid k (buildLit st t).2).nextCell ≥
        (buildLit st t).1.nextCell := objAssignChild_nextCell_ge ..
    have e2 : (objAssignChild (buildLit st t).1 onid k (buildLit st t).2).nextNode ≥
        (buildLit st t).1.nextNode := objAssignChild_nextNode_ge ..
    refine ⟨h3.1, ?_, ?_⟩
    · have := h3.2.1
      have := h1.2.1
      omega
    · have := h3.2.2
      have := h1.2.2.1
      omega

theorem good_buildArrElems (kids : List JTree) (st : St) (anid : Nat)
    (hg : Good st) :
    Good (buildArrElems st anid kids) ∧
    st.nextCell ≤ (buildArrElems st anid kids).nextCell ∧
    st.nextNode ≤ (buildArrElems st anid kids).nextNode := by
  cases kids with
  | nil => exact ⟨hg, le_refl _, le_refl _⟩
  | cons t rest =>
    simp only [buildArrElems]
    have h1 := good_buildLit t st hg
    have h2 : Good (arrAddChild (buildLit st t).1 anid (buildLit st t).2) :=
      good_arrAddChild h1.1 h1.2.2.2
    have h3 := good_buildArrElems rest _ anid h2
    have e1 : (arrAddChild (buildLit st t).1 anid (buildLit st t).2).nextCell =
        (buildLit st t).1.nextCell := arrAddChild_nextCell ..
    have e2 : (arrAddChild (buildLit st t).1 anid (buildLit st t).2).nextNode =
        (buildLit st t).1.nextNode := arrAddChild_nextNode ..
    refine ⟨h3.1, ?_, ?_⟩
    · have := h3.2.1
      have := h1.2.1
      omega
    · have := h3.2.2
      have := h1.2.2.1
      omega

end

theorem jsonAssignVal_cells (st : St) (c : Nat) (d : ValueData) (i : Nat) :
    (jsonAssignVal st c d).cells i =
      if i = c then some st.nextNode
      else if i = st.nextCell then some st.nextNode
      else st.cells i := rfl

theorem jsonAssignVal_nodes (st : St) (c : Nat) (d : ValueData) (i : Nat) :
    (jsonAssignVal st c d).nodes i =
      if i = st.nextNode then some (.leaf d) else st.nodes i := rfl

@[simp] theorem jsonAssignVal_nextCell (st : St) (c : Nat) (d : ValueData) :
    (jsonAssignVal st c d).nextCell = st.nextCell + 1 := rfl

@[simp] theorem jsonAssignVal_nextNode (st : St) (c : Nat) (d : ValueData) :
    (jsonAssignVal st c d).nextNode = st.nextNode + 1 := rfl

/-- C5 counterexample.  On an object `{"a": 1}`, subscripting the absent key
`"k"` returns a handle whose node is a default base `Node`, not a null leaf:
`is_leaf()` is `false` (not `true`), and its `dump` emits the empty string,
not `null`. -/
theorem c5_missing_key_counterexample :
    (let (st1, b) := buildLit St.empty (.obj [("a", .leaf (some "1") .num)])
     let (st2, c) := jsonSubKey st1 b "k"
     (derefNode st2 c, (derefNode st2 c).map NodeV.is_leaf,
      dumpCell 10 st2 c)) = (some .base, some false, some "") ∧
    ("" : String) ≠ "null" ∧ NodeV.base.is_leaf ≠ true := by
  refine ⟨by rfl, by decide, by decide⟩

theorem jsonSubKey_missing_spec (st : St) (b nid : Nat)
    (kids : List (String × Nat)) (key : String) (st' : St) (c : Nat)
    (hg : Good st) (hb : st.cells b = some nid)
    (hn : st.nodes nid = some (.obj kids)) (hk : findKey kids key = none)
    (h : jsonSubKey st b key = (st', c)) :
    derefNode st' c = some .base ∧
    st'.nodes nid = some (.obj (insertKey kids key c)) ∧
    st'.cells b = some nid ∧
    ∀ d : ValueData,
      derefNode (jsonAssignVal st' c d) c = some (.leaf d) ∧
      (jsonAssignVal st' c d).nodes nid = some (.obj (insertKey kids key c)) := by
  have hnidlt : nid < st.nextNode := ((hg.2 nid _ hn).1)
  have hblt : b < st.nextCell := (hg.1 b nid hb).1
  simp only [jsonSubKey, hb, hn, objIndex, hk, newProxy, allocNode, allocCell] at h
  injection h with h1 h2
  subst h1
  subst h2
  refine ⟨?_, ?_, ?_, ?_⟩
  · simp only [derefNode, setNode, allocCell, allocNode]
    simp [Nat.ne_of_lt hnidlt, (Nat.ne_of_lt hnidlt).symm]
  · simp [setNode, allocCell, allocNode]
  · simp only [setNode, allocCell, allocNode]
    rw [if_neg (by omega)]
    exact hb
  · intro d
    constructor
    · simp only [derefNode, jsonAssignVal, setCell, allocCell, allocNode, setNode]
      simp
    · simp only [jsonAssignVal, setCell, allocCell, allocNode, setNode]
      simp [Nat.ne_of_lt hnidlt, (Nat.ne_of_lt hnidlt).symm]
      omega

/-- C5 amended.  For an object node and an absent key, keyed `operator[]`
auto-creates a child holding a default base `Node` — `is_leaf()` false and
`dump` emitting empty text, unlike a null Leaf which would print `null` —
and the fresh slot is aliased into the object's map so that a later
assignment through the returned handle is visible in the object. -/
theorem c5_missing_key_amended (st : St) (b nid : Nat)
    (kids : List (String × Nat)) (key : String) (st' : St) (c : Nat)
    (hg : Good st) (hb : st.cells b = some nid)
    (hn : st.nodes nid = some (.obj kids)) (hk : findKey kids key = none)
    (h : jsonSubKey st b key = (st', c)) :
    derefNode st' c = some .base ∧
    NodeV.base.is_leaf = false ∧
    dumpNodeV 1 st' .base = some "" ∧
    dumpLeaf ⟨none, .unset⟩ = "null" ∧
    st'.nodes nid = some (.obj (insertKey kids key c)) ∧
    findKey (insertKey kids key c) key = some c ∧
    ∀ d : ValueData,
      derefNode (jsonAssignVal st' c d) c = some (.leaf d) ∧
      (jsonAssignVal st' c d).nodes nid = some (.obj (insertKey kids key c)) := by
  obtain ⟨h1, h2, h3, h4⟩ :=
    jsonSubKey_missing_spec st b nid kids key st' c hg hb hn hk h
  exact ⟨h1, rfl, rfl, rfl, h2, findKey_insertKey kids key _, h4⟩

/-- C5 witness: the amended theorem applied to the empty object and key
`"k"`, with the value `7` then assigned through the returned handle. -/
theorem c5_missing_key_witness :
    derefNode (jsonSubKey (jsonDefault St.empty).1 (jsonDefault St.empty).2 "k").1
        (jsonSubKey (jsonDefault St.empty).1 (jsonDefault St.empty).2 "k").2 =
      some .base ∧
    derefNode
        (jsonAssignVal (jsonSubKey (jsonDefault St.empty).1 (jsonDefault St.empty).2 "k").1
          (jsonSubKey (jsonDefault St.empty).1 (jsonDefault St.empty).2 "k").2
          (valOfInt (natStr 7)))
        (jsonSubKey (jsonDefault St.empty).1 (jsonDefault St.empty).2 "k").2 =
      some (.leaf (valOfInt (natStr 7))) := by
  have hg : Good (jsonDefault St.empty).1 :=
    good_newProxy good_empty (by simp [NodeV.childCells])
  have h := c5_missing_key_amended (jsonDefault St.empty).1
    (jsonDefault St.empty).2 0 [] "k"
    (jsonSubKey (jsonDefault St.empty).1 (jsonDefault St.empty).2 "k").1
    (jsonSubKey (jsonDefault St.empty).1 (jsonDefault St.empty).2 "k").2
    hg (by rfl) (by rfl) (by rfl) (by rfl)
  exact ⟨h.1, (h.2.2.2.2.2.2 (valOfInt (natStr 7))).1⟩

/-- C6 counterexample.  Subscripting a non-indexable root — here the leaf
`Json(5)` — with `[0]` yields a fresh default `Json`, whose root is an empty
*object* node dumping as `{}`, not a null leaf dumping as `null`. -/
theorem c6_index_counterexample :
    (let (st1, j) := buildLit St.empty (.leaf (some "5") .num)
     let (st2, r) := jsonSubIdx st1 j 0
     (derefNode st2 r, (derefNode st2 r).map NodeV.is_leaf,
      dumpCell 10 st2 r)) = (some (.obj []), some false, some "\x7b\x7d") ∧
    ("\x7b\x7d" : String) ≠ "null" ∧ dumpLeaf ⟨none, .unset⟩ = "null" := by
  refine ⟨by rfl, by decide, by rfl⟩

/-- C6 amended.  `operator[](idx)` never raises: on an array root with
`idx >= size()` it returns a fresh null leaf (dumping `null`) and leaves the
array node — hence its size — unchanged; on a root that is not indexable it
returns a fresh default `Json`, i.e. an empty-object value, not a null
leaf. -/
theorem c6_index_amended :
    (∀ (st : St) (a nid : Nat) (kids : List Nat) (i : Nat) (st' : St) (c : Nat),
      Good st → st.cells a = some nid → st.nodes nid = some (.arr kids) →
      kids.length ≤ i → jsonSubIdx st a i = (st', c) →
      derefNode st' c = some (.leaf ⟨none, .unset⟩) ∧
      NodeV.is_leaf (.leaf ⟨none, .unset⟩) = true ∧
      dumpLeaf ⟨none, .unset⟩ = "null" ∧
      st'.nodes nid = some (.arr kids) ∧ st'.cells a = some nid) ∧
    (∀ (st : St) (a nid : Nat) (nv : NodeV) (i : Nat) (st' : St) (c : Nat),
      st.cells a = some nid → st.nodes nid = some nv →
      nv.indexable = false → jsonSubIdx st a i = (st', c) →
      derefNode st' c = some (.obj []) ∧ NodeV.is_leaf (.obj []) = false) := by
  constructor
  · intro st a nid kids i st' c hg ha hn hlen h
    have hnidlt : nid < st.nextNode := (hg.2 nid _ hn).1
    have halt : a < st.nextCell := (hg.1 a nid ha).1
    simp only [jsonSubIdx, ha, hn] at h
    rw [dif_neg (by omega)] at h
    simp only [newProxy, allocNode, allocCell] at h
    injection h with h1 h2
    subst h1
    subst h2
    refine ⟨?_, rfl, rfl, ?_, ?_⟩
    · simp [derefNode]
    · simp [Nat.ne_of_lt hnidlt, hn]
    · simp [Nat.ne_of_lt halt, ha]
  · intro st a nid nv i st' c ha hn hnv h
    simp only [jsonSubIdx, ha, hn] at h
    cases nv with
    | arr kids => simp [NodeV.indexable] at hnv
    | base =>
      simp only [jsonDefault, newProxy, allocNode, allocCell] at h
      injection h with h1 h2
      subst h1
      subst h2
      exact ⟨by simp [derefNode], rfl⟩
    | leaf d =>
      simp only [jsonDefault, newProxy, allocNode, allocCell] at h
      injection h with h1 h2
      subst h1
      subst h2
      exact ⟨by simp [derefNode], rfl⟩
    | obj kids =>
      simp only [jsonDefault, newProxy, allocNode, allocCell] at h
      injection h with h1 h2
      subst h1
      subst h2
      exact ⟨by simp [derefNode], rfl⟩

/-- C6 witness: the out-of-range conjunct on a one-element array at index
`5`, and the non-indexable conjunct on a leaf root at index `0`. -/
theorem c6_index_witness :
    (let (st1, a) := buildLit St.empty (.arr [.leaf (some "7") .num])
     derefNode (jsonSubIdx st1 a 5).1 (jsonSubIdx st1 a 5).2 =
       some (.leaf ⟨none, .unset⟩) ∧
     (jsonSubIdx st1 a 5).1.nodes 0 = some (.arr [1])) ∧
    (let (st1, j) := buildLit St.empty (.leaf (some "5") .num)
     derefNode (jsonSubIdx st1 j 0).1 (jsonSubIdx st1 j 0).2 =
       some (.obj [])) := by
  constructor
  · have hg : Good (buildLit St.empty (.arr [.leaf (some "7") .num])).1 :=
      (good_buildLit _ _ good_empty).1
    have h := c6_index_amended.1 (buildLit St.empty (.arr [.leaf (some "7") .num])).1
      (buildLit St.empty (.arr [.leaf (some "7") .num])).2 0 [1] 5
      (jsonSubIdx (buildLit St.empty (.arr [.leaf (some "7") .num])).1
        (buildLit St.empty (.arr [.leaf (some "7") .num])).2 5).1
      (jsonSubIdx (buildLit St.empty (.arr [.leaf (some "7") .num])).1
        (buildLit St.empty (.arr [.leaf (some "7") .num])).2 5).2
      hg (by rfl) (by rfl) (by simp) (by rfl)
    exact ⟨h.1, h.2.2.2.1⟩
  · have h := c6_index_amended.2 (buildLit St.empty (.leaf (some "5") .num)).1
      (buildLit St.empty (.leaf (some "5") .num)).2 0 (.leaf (valOfInt (natStr 5))) 0
      (jsonSubIdx (buildLit St.empty (.leaf (some "5") .num)).1
        (buildLit St.empty (.leaf (some "5") .num)).2 0).1
      (jsonSubIdx (buildLit St.empty (.leaf (some "5") .num)).1
        (buildLit St.empty (.leaf (some "5") .num)).2 0).2
      (by rfl) (by rfl) (by rfl) (by rfl)
    exact h.1

/-- C2.  `Json a = b` copy-constructs by copying the `Proxy`, i.e. `a` and
`b` are the same mutable slot (`jsonCopy b = b`); consequently, writing
`a[key] = v` and then reading `b[key]` observes `v`: the read returns the
same child cell (without further state change) and that cell holds the leaf
`v`.  The side condition `hcb` records that a child slot cell of an object is
never the object's own root handle — true of every state the library can
build, since slot cells are allocated fresh by `std::map::operator[]` and
cells are never merged. -/
theorem c2_copy_write_visible (st : St) (b nid : Nat)
    (kids : List (String × Nat)) (key : String) (d : ValueData)
    (hg : Good st) (hb : st.cells b = some nid)
    (hn : st.nodes nid = some (.obj kids))
    (hcb : ∀ c0, findKey kids key = some c0 → c0 ≠ b) :
    jsonCopy b = b ∧
    ∀ st1 ch, jsonSubKey st (jsonCopy b) key = (st1, ch) →
      jsonSubKey (jsonAssignVal st1 ch d) b key = (jsonAssignVal st1 ch d, ch) ∧
      derefNode (jsonAssignVal st1 ch d) ch = some (.leaf d) := by
  have hblt : b < st.nextCell := (hg.1 b nid hb).1
  have hnidlt : nid < st.nextNode := (hg.2 nid _ hn).1
  refine ⟨rfl, ?_⟩
  intro st1 ch h
  rw [jsonCopy] at h
  cases hf : findKey kids key with
  | some c0 =>
    have hc0b : c0 ≠ b := hcb c0 hf
    simp only [jsonSubKey, hb, hn, objIndex, hf] at h
    injection h with h1 h2
    subst h1
    subst h2
    have hcb2 : (jsonAssignVal st c0 d).cells b = some nid := by
      rw [jsonAssignVal_cells]
      rw [if_neg (fun hh => hc0b hh.symm), if_neg (by omega)]
      exact hb
    have hnb2 : (jsonAssignVal st c0 d).nodes nid = some (.obj kids) := by
      rw [jsonAssignVal_nodes]
      rw [if_neg (by omega)]
      exact hn
    constructor
    · simp only [jsonSubKey, hcb2, hnb2, objIndex, hf]
    · simp [derefNode, jsonAssignVal_cells, jsonAssignVal_nodes]
  | none =>
    simp only [jsonSubKey, hb, hn, objIndex, hf] at h
    injection h with h1 h2
    subst h1
    subst h2
    have hcells1 : (setNode (newProxy st .base).1 nid
        (.obj (insertKey kids key (newProxy st .base).2))).cells b = some nid := by
      rw [setNode_cells, newProxy_cells, if_neg (by omega)]
      exact hb
    have hnodes1 : (setNode (newProxy st .base).1 nid
        (.obj (insertKey kids key (newProxy st .base).2))).nodes nid =
        some (.obj (insertKey kids key (newProxy st .base).2)) := by
      rw [setNode_nodes, if_pos rfl]
    have hcb2 : (jsonAssignVal (setNode (newProxy st .base).1 nid
        (.obj (insertKey kids key (newProxy st .base).2)))
        (newProxy st .base).2 d).cells b = some nid := by
      rw [jsonAssignVal_cells,
        if_neg (by rw [newProxy_snd]; omega),
        if_neg (by simp only [setNode_nextCell, newProxy_nextCell]; omega)]
      exact hcells1
    have hnb2 : (jsonAssignVal (setNode (newProxy st .base).1 nid
        (.obj (insertKey kids key (newProxy st .base).2)))
        (newProxy st .base).2 d).nodes nid =
        some (.obj (insertKey kids key (newProxy st .base).2)) := by
      rw [jsonAssignVal_nodes,
        if_neg (by simp only [setNode_nextNode, newProxy_nextNode]; omega)]
      exact hnodes1
    constructor
    · simp only [jsonSubKey, hcb2, hnb2, objIndex, findKey_insertKey]
    · simp [derefNode, jsonAssignVal_cells, jsonAssignVal_nodes]

/-- C2 witness: on the one-key object `{"age": 27}`, copying the handle and
writing key `"name"` through the copy is observed through the original. -/
theorem c2_copy_write_visible_witness :
    (let (st0, b) := buildLit St.empty (.obj [("age", .leaf (some "27") .num)])
     let a := jsonCopy b
     let (st1, ch) := jsonSubKey st0 a "name"
     let st2 := jsonAssignVal st1 ch (valOfString "John")
     jsonSubKey st2 b "name" = (st2, ch) ∧
       derefNode st2 ch = some (.leaf (valOfString "John"))) := by
  have hg : Good (buildLit St.empty (.obj [("age", .leaf (some "27") .num)])).1 :=
    (good_buildLit _ _ good_empty).1
  have h := c2_copy_write_visible
    (buildLit St.empty (.obj [("age", .leaf (some "27") .num)])).1
    (buildLit St.empty (.obj [("age", .leaf (some "27") .num)])).2
    0 [("age", 2)] "name" (valOfString "John") hg (by rfl) (by rfl)
    (by intro c0 hf; simp [findKey] at hf)
  exact h.2 _ _ rfl

/-- C7 counterexample.  `to<long>` on the string leaf
`Json(std::string("99999999999999999999999999"))` lets an exception escape:
`std::stol` raises `std::out_of_range`, which the `catch
(std::invalid_argument&)` handler does not cover. -/
theorem c7_to_long_counterexample :
    (let (st1, j) := buildLit St.empty
       (.leaf (some "99999999999999999999999999") .strm)
     jsonToLong st1 j) = .error () := by rfl

/-- C7 amended, for the integer and string extractions.  `to<long>` lets an
exception escape exactly when the root is a leaf whose present text parses
out of the range of `long` (`std::out_of_range` is not caught); it is absent
exactly when the root is not a leaf, the stored text is absent (null), or
`std::stol` finds no digits (`std::invalid_argument`, swallowed); otherwise
it returns the parsed value (narrowed modulo 2³² through the
`std::optional<int>` local).  `to<std::string>` performs no conversion,
cannot throw, and returns exactly a leaf's present text. -/
theorem c7_to_conversions (st : St) (j : Nat) :
    ((∃ e, jsonToLong st j = .error e) ↔
      (∃ s m, derefNode st j = some (.leaf ⟨some s, m⟩) ∧
        stolModel s = .outOfRange)) ∧
    (jsonToLong st j = .ok none ↔
      ((∀ d, derefNode st j ≠ some (.leaf d)) ∨
       (∃ m, derefNode st j = some (.leaf ⟨none, m⟩)) ∨
       (∃ s m, derefNode st j = some (.leaf ⟨some s, m⟩) ∧
         stolModel s = .invalidArg))) ∧
    (∀ s m v, derefNode st j = some (.leaf ⟨some s, m⟩) → stolModel s = .ok v →
      jsonToLong st j = .ok (some (wrapInt32 v))) ∧
    (∀ s, jsonToString st j = some s ↔
      ∃ m, derefNode st j = some (.leaf ⟨some s, m⟩)) := by
  cases hd : derefNode st j with
  | none =>
    refine ⟨by simp [jsonToLong, hd], by simp [jsonToLong, hd], ?_, ?_⟩
    · intro s m v h
      simp at h
    · intro s
      simp [jsonToString, hd]
  | some nv =>
    cases nv with
    | base =>
      refine ⟨by simp [jsonToLong, hd], by simp [jsonToLong, hd], ?_, ?_⟩
      · intro s m v h
        simp [hd] at h
      · intro s
        simp [jsonToString, hd]
    | obj kids =>
      refine ⟨by simp [jsonToLong, hd], by simp [jsonToLong, hd], ?_, ?_⟩
      · intro s m v h
        simp [hd] at h
      · intro s
        simp [jsonToString, hd]
    | arr kids =>
      refine ⟨by simp [jsonToLong, hd], by simp [jsonToLong, hd], ?_, ?_⟩
      · intro s m v h
        simp [hd] at h
      · intro s
        simp [jsonToString, hd]
    | leaf d =>
      obtain ⟨val, m⟩ := d
      cases val with
      | none =>
        refine ⟨by simp [jsonToLong, hd], by simp [jsonToLong, hd], ?_, ?_⟩
        · intro s m' v h
          simp [hd] at h
        · intro s
          simp [jsonToString, hd]
      | some s0 =>
        cases hs : stolModel s0 with
        | ok v0 =>
          refine ⟨by simp [jsonToLong, hd, hs], by simp [jsonToLong, hd, hs], ?_, ?_⟩
          · intro s m' v h hv
            simp [hd] at h
            obtain ⟨h1, h2⟩ := h
            subst h1
            rw [hs] at hv
            cases hv
            simp [jsonToLong, hd, hs]
          · intro s
            simp [jsonToString, hd]
        | invalidArg =>
          refine ⟨by simp [jsonToLong, hd, hs], ?_, ?_, ?_⟩
          · simp only [jsonToLong, hd, hs]
            simp [hd, hs]
          · intro s m' v h hv
            simp [hd] at h
            obtain ⟨h1, h2⟩ := h
            subst h1
            rw [hs] at hv
            cases hv
          · intro s
            simp [jsonToString, hd]
        | outOfRange =>
          refine ⟨?_, ?_, ?_, ?_⟩
          · simp only [jsonToLong, hd, hs]
            simp [hd, hs]
          · simp only [jsonToLong, hd, hs]
            simp [hd, hs]
          · intro s m' v h hv
            simp [hd] at h
            obtain ⟨h1, h2⟩ := h
            subst h1
            rw [hs] at hv
            cases hv
          · intro s
            simp [jsonToString, hd]

/-- C7 witness: the value case of the amended theorem at the string leaf
`"42"`, and the escape case at the out-of-range leaf. -/
theorem c7_to_conversions_witness :
    jsonToLong (buildLit St.empty (.leaf (some "42") .strm)).1
      (buildLit St.empty (.leaf (some "42") .strm)).2 =
      .ok (some (wrapInt32 42)) := by
  exact (c7_to_conversions _ _).2.2.1 "42" .strm 42 (by rfl) (by rfl)

theorem strLt_irrefl (as : List Char) : strLt as as = false := by
  induction as with
  | nil => rfl
  | cons a as ih =>
    simp only [strLt]
    rw [if_neg (lt_irrefl a), if_neg (lt_irrefl a)]
    exact ih

theorem strLt_total {as bs : List Char} (h1 : strLt as bs = false)
    (h2 : as ≠ bs) : strLt bs as = true := by
  induction as generalizing bs with
  | nil =>
    cases bs with
    | nil => exact absurd rfl h2
    | cons b bs => simp [strLt] at h1
  | cons a as ih =>
    cases bs with
    | nil => simp [strLt]
    | cons b bs =>
      simp only [strLt] at h1 ⊢
      by_cases hab : a < b
      · rw [if_pos hab] at h1
        exact absurd h1 (by simp)
      · rw [if_neg hab] at h1
        by_cases hba : b < a
        · rw [if_pos hba]
        · rw [if_neg hba] at h1
          rw [if_neg hba, if_neg hab]
          have hab' : a = b := le_antisymm (not_lt.mp hba) (not_lt.mp hab)
          subst hab'
          exact ih h1 (fun he => h2 (by rw [he]))

theorem strLt_trans {as bs cs : List Char} (h1 : strLt as bs = true)
    (h2 : strLt bs cs = true) : strLt as cs = true := by
  induction as generalizing bs cs with
  | nil =>
    cases bs with
    | nil => simp [strLt] at h1
    | cons b bs =>
      cases cs with
      | nil => simp [strLt] at h2
      | cons c cs => simp [strLt]
  | cons a as ih =>
    cases bs with
    | nil => simp [strLt] at h1
    | cons b bs =>
      cases cs with
      | nil => simp [strLt] at h2
      | cons c cs =>
        simp only [strLt] at h1 h2 ⊢
        by_cases hab : a < b
        · rw [if_pos hab] at h1
          by_cases hbc : b < c
          · rw [if_pos (lt_trans hab hbc)]
          · rw [if_neg hbc] at h2
            by_cases hcb : c < b
            · rw [if_pos hcb] at h2
              exact absurd h2 (by simp)
            · have : b = c := le_antisymm (not_lt.mp hcb) (not_lt.mp hbc)
              subst this
              rw [if_pos hab]
        · rw [if_neg hab] at h1
          by_cases hba : b < a
          · rw [if_pos hba] at h1
            exact absurd h1 (by simp)
          · rw [if_neg hba] at h1
            have : a = b := le_antisymm (not_lt.mp hba) (not_lt.mp hab)
            subst this
            by_cases hac : a < c
            · rw [if_pos hac]
            · rw [if_neg hac] at h2 ⊢
              by_cases hca : c < a
              · rw [if_pos hca] at h2
                exact absurd h2 (by simp)
              · rw [if_neg hca] at h2 ⊢
                exact ih h1 h2

theorem keyLt_irrefl (a : String) : keyLt a a = false := strLt_irrefl a.data

theorem keyLt_total {a b : String} (h1 : keyLt a b = false) (h2 : a ≠ b) :
    keyLt b a = true :=
  strLt_total h1 (fun he => h2 (String.ext he))

theorem keyLt_trans {a b c : String} (h1 : keyLt a b = true)
    (h2 : keyLt b c = true) : keyLt a c = true := strLt_trans h1 h2

theorem keyLt_asymm {a b : String} (h : keyLt a b = true) : keyLt b a = false := by
  by_contra hc
  have hba : keyLt b a = true := by
    revert hc
    cases keyLt b a <;> simp
  have := keyLt_trans h hba
  rw [keyLt_irrefl] at this
  cases this

/-- Ordered insertion preserves the strictly-increasing key chain. -/
theorem chain_mapInsertV {m : List (String × ValueData)} {k : String}
    {v : ValueData}
    (hs : List.Chain' (fun a b => keyLt a.1 b.1 = true) m) :
    List.Chain' (fun a b => keyLt a.1 b.1 = true) (mapInsertV m k v) := by
  induction m with
  | nil => simp [mapInsertV]
  | cons kv rest ih =>
    obtain ⟨k', v'⟩ := kv
    simp only [mapInsertV]
    by_cases h1 : keyLt k k' = true
    · rw [if_pos h1]
      exact List.Chain'.cons h1 hs
    · rw [if_neg h1]
      by_cases h2 : k = k'
      · rw [if_pos h2]
        subst h2
        cases rest with
        | nil => simp
        | cons kv2 rest2 =>
          exact List.Chain'.cons (List.chain'_cons.mp hs).1
            (List.chain'_cons.mp hs).2
      · rw [if_neg h2]
        have h3 : keyLt k' k = true :=
          keyLt_total (by revert h1; cases keyLt k k' <;> simp) h2
        have hrest : List.Chain' (fun a b => keyLt a.1 b.1 = true) rest := by
          cases rest with
          | nil => simp
          | cons kv2 rest2 => exact (List.chain'_cons.mp hs).2
        refine List.chain'_cons'.mpr ⟨?_, ih hrest⟩
        intro y hy
        cases rest with
        | nil =>
          simp [mapInsertV] at hy
          subst hy
          exact h3
        | cons kv2 rest2 =>
          obtain ⟨k2, v2⟩ := kv2
          simp only [mapInsertV] at hy
          by_cases h4 : keyLt k k2 = true
          · rw [if_pos h4] at hy
            simp at hy
            subst hy
            exact h3
          · rw [if_neg h4] at hy
            by_cases h5 : k = k2
            · rw [if_pos h5] at hy
              simp at hy
              subst hy
              exact h3
            · rw [if_neg h5] at hy
              simp at hy
              subst hy
              exact (List.chain'_cons.mp hs).1

theorem good_jsonAssignVal {st : St} {c : Nat} {d : ValueData} (hg : Good st)
    (hc : c < st.nextCell) : Good (jsonAssignVal st c d) := by
  have h1 : Good (allocNode st (.leaf d)).1 :=
    good_allocNode hg (by simp [NodeV.childCells])
  have h2 : Good (allocCell (allocNode st (.leaf d)).1 (allocNode st (.leaf d)).2).1 :=
    good_allocCell h1 (by simp)
  exact good_setCell h2 (by simp; omega) (by simp)

theorem SlotsOk_length {st : St} :
    ∀ {kids : List (String × Nat)} {m : List (String × ValueData)},
    SlotsOk st kids m → kids.length = m.length := by
  intro kids
  induction kids with
  | nil =>
    intro m hs
    cases m with
    | nil => rfl
    | cons kv rest => simp [SlotsOk] at hs
  | cons kc rest ih =>
    intro m hs
    obtain ⟨k, c⟩ := kc
    cases m with
    | nil => simp [SlotsOk] at hs
    | cons kv rest' =>
      obtain ⟨k', v⟩ := kv
      simp only [SlotsOk] at hs
      simp [ih hs.2.2.2.2.2]

theorem SlotsOk_mem {st : St} :
    ∀ {kids : List (String × Nat)} {m : List (String × ValueData)},
    SlotsOk st kids m → ∀ c ∈ kids.map Prod.snd, c ≠ 0 ∧ c < st.nextCell := by
  intro kids
  induction kids with
  | nil => intro m _ c hc; simp at hc
  | cons kc rest ih =>
    intro m hs c hc
    obtain ⟨k, c0⟩ := kc
    cases m with
    | nil => simp [SlotsOk] at hs
    | cons kv rest' =>
      obtain ⟨k', v⟩ := kv
      simp only [SlotsOk] at hs
      rw [List.map_cons] at hc
      rcases List.mem_cons.mp hc with h | h
      · subst h
        exact ⟨hs.2.1, hs.2.2.1⟩
      · exact ih hs.2.2.2.2.2 c h

/-- `SlotsOk` is stable under a value-assignment through a cell that is not
one of the slots. -/
theorem SlotsOk_assignVal_other {st : St} {ch : Nat} {v : ValueData} :
    ∀ {kids : List (String × Nat)} {m : List (String × ValueData)},
    Good st → SlotsOk st kids m → ch ∉ kids.map Prod.snd →
    SlotsOk (jsonAssignVal st ch v) kids m := by
  intro kids
  induction kids with
  | nil =>
    intro m hg hs hch
    cases m with
    | nil => trivial
    | cons kv rest => simp [SlotsOk] at hs
  | cons kc rest ih =>
    intro m hg hs hch
    obtain ⟨k, c⟩ := kc
    cases m with
    | nil => simp [SlotsOk] at hs
    | cons kv rest' =>
      obtain ⟨k', v'⟩ := kv
      simp only [SlotsOk] at hs ⊢
      obtain ⟨hk, hc0, hclt, hderef, hnodup, hrest⟩ := hs
      rw [List.map_cons, List.mem_cons] at hch
      push_neg at hch
      obtain ⟨hch1, hch2⟩ := hch
      refine ⟨hk, hc0, by simp; omega, ?_, hnodup, ih hg hrest hch2⟩
      obtain ⟨ni, hcell, hnode⟩ : ∃ ni, st.cells c = some ni ∧
          st.nodes ni = some (.leaf v') := by
        cases hcc : st.cells c with
        | none => simp [derefNode, hcc] at hderef
        | some ni => exact ⟨ni, rfl, by simpa [derefNode, hcc] using hderef⟩
      have hni : ni < st.nextNode := (hg.1 c ni hcell).2
      simp only [derefNode, jsonAssignVal_cells,
        if_neg (fun hh : c = ch => hch1 hh.symm), if_neg (by omega : ¬c = st.nextCell),
        hcell, Option.some_bind, jsonAssignVal_nodes, if_neg (by omega : ¬ni = st.nextNode)]
      exact hnode

theorem findKey_some_mem_keys {kids : List (String × Nat)} {k : String}
    {ch : Nat} (hf : findKey kids k = some ch) : k ∈ kids.map Prod.fst := by
  induction kids with
  | nil => simp [findKey] at hf
  | cons kc rest ih =>
    obtain ⟨k0, c0⟩ := kc
    simp only [findKey] at hf
    by_cases h : k = k0
    · subst h
      simp
    · rw [if_neg h] at hf
      rw [List.map_cons]
      exact List.mem_cons_of_mem _ (ih hf)

theorem SlotsOk_keys {st : St} :
    ∀ {kids : List (String × Nat)} {m : List (String × ValueData)},
    SlotsOk st kids m → kids.map Prod.fst = m.map Prod.fst := by
  intro kids
  induction kids with
  | nil =>
    intro m hs
    cases m with
    | nil => rfl
    | cons kv rest => simp [SlotsOk] at hs
  | cons kc rest ih =>
    intro m hs
    obtain ⟨k0, c0⟩ := kc
    cases m with
    | nil => simp [SlotsOk] at hs
    | cons kv rest' =>
      obtain ⟨k0', v0⟩ := kv
      simp only [SlotsOk] at hs
      simp [hs.1, ih hs.2.2.2.2.2]

theorem chain_lt_of_mem {p : String × ValueData}
    {rest : List (String × ValueData)}
    (hch : List.Chain' (fun a b => keyLt a.1 b.1 = true) (p :: rest))
    {k : String} (hk : k ∈ rest.map Prod.fst) : keyLt p.1 k = true := by
  induction rest generalizing p with
  | nil => simp at hk
  | cons x xs ih =>
    rw [List.map_cons, List.mem_cons] at hk
    rcases hk with h | h
    · subst h
      exact (List.chain'_cons.mp hch).1
    · exact keyLt_trans (List.chain'_cons.mp hch).1
        (ih (List.chain'_cons.mp hch).2 h)

/-- Assigning through the slot that `findKey` returns updates exactly that
entry of the value map (at its position, which `mapInsertV` preserves because
the keys are strictly sorted). -/
theorem SlotsOk_assign_found {st : St} {k : String} {v : ValueData} :
    ∀ {kids : List (String × Nat)} {m : List (String × ValueData)} {ch : Nat},
    Good st → SlotsOk st kids m →
    List.Chain' (fun a b => keyLt a.1 b.1 = true) m →
    findKey kids k = some ch →
    SlotsOk (jsonAssignVal st ch v) kids (mapInsertV m k v) := by
  intro kids
  induction kids with
  | nil => intro m ch _ _ _ hf; simp [findKey] at hf
  | cons kc rest ih =>
    intro m ch hg hs hsort hf
    obtain ⟨k0, c0⟩ := kc
    cases m with
    | nil => simp [SlotsOk] at hs
    | cons kv rest' =>
      obtain ⟨k0', v0⟩ := kv
      simp only [SlotsOk] at hs
      obtain ⟨hk, hc0, hclt, hderef, hnodup, hrest⟩ := hs
      subst hk
      simp only [findKey] at hf
      by_cases hkk : k = k0
      · rw [if_pos hkk] at hf
        cases hf
        subst hkk
        have hins : mapInsertV ((k, v0) :: rest') k v = (k, v) :: rest' := by
          simp [mapInsertV, keyLt_irrefl]
        rw [hins]
        simp only [SlotsOk]
        refine ⟨by trivial, hc0, by simp; omega, ?_, hnodup,
          SlotsOk_assignVal_other hg hrest hnodup⟩
        simp [derefNode, jsonAssignVal_cells, jsonAssignVal_nodes]
      · rw [if_neg hkk] at hf
        have hmem : ch ∈ rest.map Prod.snd := findKey_mem_snd hf
        have hchc0 : c0 ≠ ch := fun he => hnodup (he ▸ hmem)
        -- k occurs in the tail, so k0 < k: the insert recurses past the head
        have hk0k : keyLt k0 k = true := by
          have hkmem : k ∈ rest.map Prod.fst := findKey_some_mem_keys hf
          rw [SlotsOk_keys hrest] at hkmem
          exact chain_lt_of_mem hsort hkmem
        have hrest' : List.Chain' (fun a b => keyLt a.1 b.1 = true) rest' := by
          cases rest' with
          | nil => simp
          | cons x xs => exact (List.chain'_cons.mp hsort).2
        have hnlt : ¬ (keyLt k k0 = true) := by simp [keyLt_asymm hk0k]
        have hins : mapInsertV ((k0, v0) :: rest') k v =
            (k0, v0) :: mapInsertV rest' k v := by
          simp only [mapInsertV]
          rw [if_neg hnlt, if_neg hkk]
        rw [hins]
        simp only [SlotsOk]
        refine ⟨by trivial, hc0, by simp; omega, ?_, hnodup, ih hg hrest hrest' hf⟩
        obtain ⟨ni, hcell, hnode⟩ : ∃ ni, st.cells c0 = some ni ∧
            st.nodes ni = some (.leaf v0) := by
          cases hcc : st.cells c0 with
          | none => simp [derefNode, hcc] at hderef
          | some ni => exact ⟨ni, rfl, by simpa [derefNode, hcc] using hderef⟩
        have hni : ni < st.nextNode := (hg.1 c0 ni hcell).2
        simp only [derefNode, jsonAssignVal_cells, if_neg hchc0,
          if_neg (by omega : ¬c0 = st.nextCell), hcell, Option.some_bind,
          jsonAssignVal_nodes, if_neg (by omega : ¬ni = st.nextNode)]
        exact hnode

/-- Inserting the same key into the slot map and the value map at a state
where the fresh slot already holds the leaf value keeps the maps in
correspondence. -/
theorem SlotsOk_insertKey_mapInsertV {st : St} {k : String} {slot : Nat}
    {v : ValueData} :
    ∀ {kids : List (String × Nat)} {m : List (String × ValueData)},
    SlotsOk st kids m → slot ≠ 0 → slot < st.nextCell →
    derefNode st slot = some (.leaf v) → slot ∉ kids.map Prod.snd →
    SlotsOk st (insertKey kids k slot) (mapInsertV m k v) := by
  intro kids
  induction kids with
  | nil =>
    intro m hs h1 h2 h3 h4
    cases m with
    | nil =>
      simp only [insertKey, mapInsertV, SlotsOk]
      exact ⟨by trivial, h1, h2, h3, by simp, trivial⟩
    | cons kv rest => simp [SlotsOk] at hs
  | cons kc rest ih =>
    intro m hs h1 h2 h3 h4
    obtain ⟨k0, c0⟩ := kc
    cases m with
    | nil => simp [SlotsOk] at hs
    | cons kv rest' =>
      obtain ⟨k0', v0⟩ := kv
      simp only [SlotsOk] at hs
      obtain ⟨hk, hc0, hclt, hderef, hnodup, hrest⟩ := hs
      subst hk
      rw [List.map_cons, List.mem_cons] at h4
      push_neg at h4
      obtain ⟨h4a, h4b⟩ := h4
      simp only [insertKey, mapInsertV]
      by_cases hlt : keyLt k k0 = true
      · rw [if_pos hlt, if_pos hlt]
        simp only [SlotsOk]
        refine ⟨by trivial, h1, h2, h3, ?_,
          ⟨by trivial, hc0, hclt, hderef, hnodup, hrest⟩⟩
        rw [List.map_cons, List.mem_cons]
        push_neg
        exact ⟨h4a, h4b⟩
      · rw [if_neg hlt, if_neg hlt]
        by_cases heq : k = k0
        · rw [if_pos heq, if_pos heq]
          simp only [SlotsOk]
          exact ⟨by trivial, h1, h2, h3, h4b, hrest⟩
        · rw [if_neg heq, if_neg heq]
          simp only [SlotsOk]
          refine ⟨by trivial, hc0, hclt, hderef, ?_, ih hrest h1 h2 h3 h4b⟩
          intro hmem
          rcases insertKey_childMem hmem with h | h
          · exact hnodup h
          · exact h4a (h ▸ rfl)

theorem dumpCell_succ (f : Nat) (st : St) (c : Nat) :
    dumpCell (f + 1) st c = (derefNode st c).bind (fun nv => dumpNodeV f st nv) :=
  rfl

/-- `SlotsOk` transfers to any state that preserves the allocated non-root
cells and the leaf nodes. -/
theorem SlotsOk_mono {st st' : St}
    (hcell : ∀ c, c ≠ 0 → c < st.nextCell → st'.cells c = st.cells c)
    (hnode : ∀ ni d, st.nodes ni = some (.leaf d) →
      st'.nodes ni = some (.leaf d))
    (hnext : st.nextCell ≤ st'.nextCell) :
    ∀ {kids : List (String × Nat)} {m : List (String × ValueData)},
    SlotsOk st kids m → SlotsOk st' kids m := by
  intro kids
  induction kids with
  | nil =>
    intro m hs
    cases m with
    | nil => trivial
    | cons kv rest => simp [SlotsOk] at hs
  | cons kc rest ih =>
    intro m hs
    obtain ⟨k, c⟩ := kc
    cases m with
    | nil => simp [SlotsOk] at hs
    | cons kv rest' =>
      obtain ⟨k', v⟩ := kv
      simp only [SlotsOk] at hs ⊢
      obtain ⟨hk, hc0, hclt, hderef, hnodup, hrest⟩ := hs
      refine ⟨hk, hc0, by omega, ?_, hnodup, ih hrest⟩
      obtain ⟨ni, hcellv, hnodev⟩ : ∃ ni, st.cells c = some ni ∧
          st.nodes ni = some (.leaf v) := by
        cases hcc : st.cells c with
        | none => simp [derefNode, hcc] at hderef
        | some ni => exact ⟨ni, rfl, by simpa [derefNode, hcc] using hderef⟩
      simp only [derefNode, hcell c hc0 hclt, hcellv, Option.some_bind]
      exact hnode ni v hnodev

/-- Effect of one write `j[k] = v` on an empty-rooted object living at cell
`0` / node `0`: the store stays well formed, the root handle is untouched,
and the children map tracks the `std::map` insert-or-assign. -/
theorem writeStep_spec (st : St) (kids : List (String × Nat))
    (m : List (String × ValueData)) (k : String) (v : ValueData)
    (hg : Good st) (h0 : st.cells 0 = some 0)
    (hn : st.nodes 0 = some (.obj kids)) (hs : SlotsOk st kids m)
    (hsort : List.Chain' (fun a b => keyLt a.1 b.1 = true) m) :
    Good (jsonAssignVal (jsonSubKey st 0 k).1 (jsonSubKey st 0 k).2 v) ∧
    (jsonAssignVal (jsonSubKey st 0 k).1 (jsonSubKey st 0 k).2 v).cells 0 =
      some 0 ∧
    ∃ kids',
      (jsonAssignVal (jsonSubKey st 0 k).1 (jsonSubKey st 0 k).2 v).nodes 0 =
        some (.obj kids') ∧
      SlotsOk (jsonAssignVal (jsonSubKey st 0 k).1 (jsonSubKey st 0 k).2 v)
        kids' (mapInsertV m k v) := by
  have h0c : 0 < st.nextCell := (hg.1 0 0 h0).1
  have h0n : 0 < st.nextNode := (hg.2 0 _ hn).1
  cases hf : findKey kids k with
  | some ch =>
    have hsub : jsonSubKey st 0 k = (st, ch) := by
      simp [jsonSubKey, h0, hn, objIndex, hf]
    rw [hsub]
    have hmem := SlotsOk_mem hs ch (findKey_mem_snd hf)
    refine ⟨good_jsonAssignVal hg hmem.2, ?_, kids, ?_, ?_⟩
    · rw [jsonAssignVal_cells, if_neg (fun hh => hmem.1 hh.symm),
        if_neg (show ¬0 = st.nextCell by omega)]
      exact h0
    · rw [jsonAssignVal_nodes, if_neg (show ¬0 = st.nextNode by omega)]
      exact hn
    · exact SlotsOk_assign_found hg hs hsort hf
  | none =>
    have hsub : jsonSubKey st 0 k =
        (setNode (newProxy st .base).1 0
          (.obj (insertKey kids k (newProxy st .base).2)),
         (newProxy st .base).2) := by
      simp [jsonSubKey, h0, hn, objIndex, hf]
    rw [hsub]
    have hg1 : Good (setNode (newProxy st .base).1 0
        (.obj (insertKey kids k (newProxy st .base).2))) := by
      apply good_setNode (good_newProxy hg (by simp [NodeV.childCells]))
        (by simp)
      intro c hc
      simp only [NodeV.childCells] at hc
      rcases insertKey_childMem hc with h' | h'
      · have := (hg.2 0 _ hn).2 c (by simpa [NodeV.childCells] using h')
        simp
        omega
      · rw [h', newProxy_snd]
        simp
    -- the old slots, in the intermediate state
    have hs1 : SlotsOk (setNode (newProxy st .base).1 0
        (.obj (insertKey kids k (newProxy st .base).2))) kids m := by
      refine @SlotsOk_mono st _ ?_ ?_ ?_ _ _ hs
      · intro c hc0 hclt
        rw [setNode_cells, newProxy_cells, if_neg (by omega)]
      · intro ni d hleaf
        have hni : ni < st.nextNode := (hg.2 ni _ hleaf).1
        have hni0 : ni ≠ 0 := by
          intro he
          rw [he, hn] at hleaf
          cases hleaf
        rw [setNode_nodes, if_neg hni0, newProxy_nodes,
          if_neg (by omega)]
        exact hleaf
      · simp
    -- after the assignment through the fresh slot
    have hslotmem : (newProxy st .base).2 ∉ kids.map Prod.snd := by
      rw [newProxy_snd]
      intro hmem
      have := (SlotsOk_mem hs _ hmem).2
      omega
    have hs2 := @SlotsOk_assignVal_other _ ((newProxy st .base).2) v _ _
      hg1 hs1 hslotmem
    refine ⟨good_jsonAssignVal hg1 (by simp), ?_, insertKey kids k (newProxy st .base).2,
      ?_, ?_⟩
    · rw [jsonAssignVal_cells,
        if_neg (by rw [newProxy_snd]; omega),
        if_neg (by simp only [setNode_nextCell, newProxy_nextCell]; omega),
        setNode_cells, newProxy_cells, if_neg (by omega)]
      exact h0
    · rw [jsonAssignVal_nodes,
        if_neg (by simp only [setNode_nextNode, newProxy_nextNode]; omega),
        setNode_nodes, if_pos rfl]
    · apply SlotsOk_insertKey_mapInsertV hs2
      · rw [newProxy_snd]
        omega
      · rw [newProxy_snd]
        simp only [jsonAssignVal_nextCell, setNode_nextCell, newProxy_nextCell]
        omega
      · simp [derefNode, jsonAssignVal_cells, jsonAssignVal_nodes]
      · exact fun hmem => hslotmem hmem

/-- The full write sequence, by induction from any reachable object state. -/
theorem runWrites_spec (ws : List (String × ValueData)) :
    ∀ (st : St) (kids : List (String × Nat)) (m : List (String × ValueData)),
    Good st → st.cells 0 = some 0 → st.nodes 0 = some (.obj kids) →
    SlotsOk st kids m →
    List.Chain' (fun a b => keyLt a.1 b.1 = true) m →
    ∃ kids',
      (runWrites st 0 ws).cells 0 = some 0 ∧
      (runWrites st 0 ws).nodes 0 = some (.obj kids') ∧
      SlotsOk (runWrites st 0 ws) kids'
        (ws.foldl (fun acc kv => mapInsertV acc kv.1 kv.2) m) ∧
      List.Chain' (fun a b => keyLt a.1 b.1 = true)
        (ws.foldl (fun acc kv => mapInsertV acc kv.1 kv.2) m) := by
  induction ws with
  | nil =>
    intro st kids m hg h0 hn hs hsort
    exact ⟨kids, h0, hn, hs, hsort⟩
  | cons kv rest ih =>
    intro st kids m hg h0 hn hs hsort
    obtain ⟨k, v⟩ := kv
    have hstep := writeStep_spec st kids m k v hg h0 hn hs hsort
    obtain ⟨hg2, h02, kids2, hn2, hs2⟩ := hstep
    have hrun : runWrites st 0 ((k, v) :: rest) =
        runWrites (jsonAssignVal (jsonSubKey st 0 k).1 (jsonSubKey st 0 k).2 v)
          0 rest := rfl
    rw [hrun]
    simpa using ih _ kids2 (mapInsertV m k v) hg2 h02 hn2 hs2
      (chain_mapInsertV hsort)

/-- `ObjectNode::dump`'s member loop over a map of leaf slots renders the
pure value map. -/
theorem dumpEntries_slots {st : St} :
    ∀ (kids : List (String × Nat)) (m : List (String × ValueData)) (f : Nat),
    SlotsOk st kids m → kids.length + 2 ≤ f →
    dumpEntries f st kids = some (renderVals m) := by
  intro kids
  induction kids with
  | nil =>
    intro m f hs hf
    cases m with
    | nil =>
      obtain ⟨g, rfl⟩ : ∃ g, f = g + 1 := ⟨f - 1, by omega⟩
      rfl
    | cons kv rest => simp [SlotsOk] at hs
  | cons kc rest ih =>
    intro m f hs hf
    obtain ⟨k, c⟩ := kc
    cases m with
    | nil => simp [SlotsOk] at hs
    | cons kv rest' =>
      obtain ⟨k', v⟩ := kv
      simp only [SlotsOk] at hs
      obtain ⟨hk, hc0, hclt, hderef, hnodup, hrest⟩ := hs
      subst hk
      obtain ⟨g, rfl⟩ : ∃ g, f = g + 1 := ⟨f - 1, by omega⟩
      obtain ⟨g1, rfl⟩ : ∃ g1, g = g1 + 1 := ⟨g - 1, by simp at hf; omega⟩
      obtain ⟨g2, rfl⟩ : ∃ g2, g1 = g2 + 1 := ⟨g1 - 1, by simp at hf; omega⟩
      have hdc : dumpCell (g2 + 1 + 1) st c = some (dumpLeaf v) := by
        rw [dumpCell_succ, hderef]
        rfl
      have hde : dumpEntries (g2 + 1 + 1) st rest = some (renderVals rest') :=
        ih rest' _ hrest (by simp at hf ⊢; omega)
      have hlen : rest.isEmpty = rest'.isEmpty := by
        have := @SlotsOk_length st _ _ hrest
        cases rest <;> cases rest' <;> simp_all
      simp only [dumpEntries, hdc, hde, Option.some_bind, renderVals, hlen]
      rfl

/-- Serializing the object root renders the pure value map in sorted key
order. -/
theorem dumpCell_obj_slots {st : St} {kids : List (String × Nat)}
    {m : List (String × ValueData)} {F : Nat}
    (h0 : st.cells 0 = some 0) (hn : st.nodes 0 = some (.obj kids))
    (hs : SlotsOk st kids m) (hF : kids.length + 4 ≤ F) :
    dumpCell F st 0 = some ("\x7b" ++ renderVals m ++ "\x7d") := by
  obtain ⟨g, rfl⟩ : ∃ g, F = g + 1 := ⟨F - 1, by omega⟩
  obtain ⟨g1, rfl⟩ : ∃ g1, g = g1 + 1 := ⟨g - 1, by omega⟩
  rw [dumpCell_succ]
  have : derefNode st 0 = some (.obj kids) := by
    simp [derefNode, h0, hn]
  rw [this, Option.some_bind]
  have hde : dumpEntries g1 st kids = some (renderVals m) :=
    dumpEntries_slots kids m _ hs (by omega)
  simp only [dumpNodeV, hde, Option.some_bind]
  rfl

theorem StepOk_refl (nc nn : Nat) (st : St) : StepOk nc nn st st :=
  ⟨fun _ _ => rfl, fun _ _ => rfl⟩

theorem StepOk_trans {nc nn : Nat} {st st' st'' : St} (h1 : StepOk nc nn st st')
    (h2 : StepOk nc nn st' st'') : StepOk nc nn st st'' :=
  ⟨fun x hx => (h2.1 x hx).trans (h1.1 x hx),
   fun x hx => (h2.2 x hx).trans (h1.2 x hx)⟩

theorem frame_allocNode {nc nn : Nat} {st : St} {nv : NodeV}
    (h : FrameSt nc nn st) (hnv : ∀ c ∈ nv.childCells, nc ≤ c) :
    FrameSt nc nn (allocNode st nv).1 ∧ StepOk nc nn st (allocNode st nv).1 ∧
      nn ≤ (allocNode st nv).2 := by
  obtain ⟨h1, h2, h3, h4⟩ := h
  refine ⟨⟨by simp; omega, by simp; omega, ?_, ?_⟩, ⟨?_, ?_⟩, by simp; omega⟩
  · intro c nid hc hcell
    rw [allocNode_cells] at hcell
    exact h3 c nid hc hcell
  · intro nid nv' hnid hnode
    rw [allocNode_nodes] at hnode
    by_cases he : nid = st.nextNode
    · rw [if_pos he] at hnode
      cases hnode
      exact hnv
    · rw [if_neg he] at hnode
      exact h4 nid nv' hnid hnode
  · intro x hx
    rw [allocNode_cells]
  · intro x hx
    rw [allocNode_nodes, if_neg (by omega)]

theorem frame_allocCell {nc nn : Nat} {st : St} {nid : Nat}
    (h : FrameSt nc nn st) (hnid : nn ≤ nid) :
    FrameSt nc nn (allocCell st nid).1 ∧ StepOk nc nn st (allocCell st nid).1 ∧
      nc ≤ (allocCell st nid).2 := by
  obtain ⟨h1, h2, h3, h4⟩ := h
  refine ⟨⟨by simp; omega, by simp; omega, ?_, ?_⟩, ⟨?_, ?_⟩, by simp; omega⟩
  · intro c nid' hc hcell
    rw [allocCell_cells] at hcell
    by_cases he : c = st.nextCell
    · rw [if_pos he] at hcell
      cases hcell
      exact hnid
    · rw [if_neg he] at hcell
      exact h3 c nid' hc hcell
  · intro nid' nv hnid' hnode
    rw [allocCell_nodes] at hnode
    exact h4 nid' nv hnid' hnode
  · intro x hx
    rw [allocCell_cells, if_neg (by omega)]
  · intro x hx
    rw [allocCell_nodes]

theorem frame_newProxy {nc nn : Nat} {st : St} {nv : NodeV}
    (h : FrameSt nc nn st) (hnv : ∀ c ∈ nv.childCells, nc ≤ c) :
    FrameSt nc nn (newProxy st nv).1 ∧ StepOk nc nn st (newProxy st nv).1 ∧
      nc ≤ (newProxy st nv).2 := by
  obtain ⟨ha, hb, hcc⟩ := frame_allocNode h hnv
  obtain ⟨hd, he, hf⟩ := frame_allocCell ha hcc
  exact ⟨hd, StepOk_trans hb he, hf⟩

theorem frame_setCell {nc nn : Nat} {st : St} {c nid : Nat}
    (h : FrameSt nc nn st) (hc : nc ≤ c) (hnid : nn ≤ nid) :
    FrameSt nc nn (setCell st c nid) ∧ StepOk nc nn st (setCell st c nid) := by
  obtain ⟨h1, h2, h3, h4⟩ := h
  refine ⟨⟨by simp; omega, by simp; omega, ?_, ?_⟩, ⟨?_, ?_⟩⟩
  · intro c' nid' hc' hcell
    rw [setCell_cells] at hcell
    by_cases he : c' = c
    · rw [if_pos he] at hcell
      cases hcell
      exact hnid
    · rw [if_neg he] at hcell
      exact h3 c' nid' hc' hcell
  · intro nid' nv hnid' hnode
    rw [setCell_nodes] at hnode
    exact h4 nid' nv hnid' hnode
  · intro x hx
    rw [setCell_cells, if_neg (by omega)]
  · intro x hx
    rw [setCell_nodes]

theorem frame_setNode {nc nn : Nat} {st : St} {nid : Nat} {nv : NodeV}
    (h : FrameSt nc nn st) (hnid : nn ≤ nid)
    (hnv : ∀ c ∈ nv.childCells, nc ≤ c) :
    FrameSt nc nn (setNode st nid nv) ∧ StepOk nc nn st (setNode st nid nv) := by
  obtain ⟨h1, h2, h3, h4⟩ := h
  refine ⟨⟨by simp; omega, by simp; omega, ?_, ?_⟩, ⟨?_, ?_⟩⟩
  · intro c' nid' hc' hcell
    rw [setNode_cells] at hcell
    exact h3 c' nid' hc' hcell
  · intro nid' nv' hnid' hnode
    rw [setNode_nodes] at hnode
    by_cases he : nid' = nid
    · rw [if_pos he] at hnode
      cases hnode
      exact hnv
    · rw [if_neg he] at hnode
      exact h4 nid' nv' hnid' hnode
  · intro x hx
    rw [setNode_cells]
  · intro x hx
    rw [setNode_nodes, if_neg (by omega)]

theorem frame_jsonAssignVal {nc nn : Nat} {st : St} {c : Nat} {d : ValueData}
    (h : FrameSt nc nn st) (hc : nc ≤ c) :
    FrameSt nc nn (jsonAssignVal st c d) ∧ StepOk nc nn st (jsonAssignVal st c d) := by
  obtain ⟨ha, hb, hcc⟩ := @frame_allocNode _ _ _ (.leaf d) h
    (by simp [NodeV.childCells])
  obtain ⟨hd, he, _⟩ := frame_allocCell ha hcc
  have := @frame_setCell _ _ _ c ((allocNode st (.leaf d)).2) hd
    hc (by simpa using h.2.1)
  exact ⟨this.1, StepOk_trans (StepOk_trans hb he) this.2⟩

theorem frame_jsonAssignJson {nc nn : Nat} {st : St} {c other : Nat}
    (h : FrameSt nc nn st) (hc : nc ≤ c) (hother : nc ≤ other) :
    FrameSt nc nn (jsonAssignJson st c other) ∧
      StepOk nc nn st (jsonAssignJson st c other) := by
  unfold jsonAssignJson
  cases hcell : st.cells other with
  | none => exact ⟨h, StepOk_refl nc nn st⟩
  | some nid => exact frame_setCell h hc (h.2.2.1 other nid hother hcell)

theorem frame_jsonDefault {nc nn : Nat} {st : St} (h : FrameSt nc nn st) :
    FrameSt nc nn (jsonDefault st).1 ∧ StepOk nc nn st (jsonDefault st).1 ∧
      nc ≤ (jsonDefault st).2 :=
  frame_newProxy h (by simp [NodeV.childCells])

theorem frame_jsonSubKey {nc nn : Nat} {st : St} {c : Nat} {k : String}
    (h : FrameSt nc nn st) (hc : nc ≤ c) :
    FrameSt nc nn (jsonSubKey st c k).1 ∧ StepOk nc nn st (jsonSubKey st c k).1 ∧
      nc ≤ (jsonSubKey st c k).2 := by
  cases hcell : st.cells c with
  | none =>
    have he : jsonSubKey st c k = jsonDefault st := by
      simp [jsonSubKey, hcell]
    rw [he]
    exact frame_jsonDefault h
  | some nid =>
    have hnid : nn ≤ nid := h.2.2.1 c nid hc hcell
    cases hnode : st.nodes nid with
    | none =>
      have he : jsonSubKey st c k = jsonDefault st := by
        simp [jsonSubKey, hcell, hnode]
      rw [he]
      exact frame_jsonDefault h
    | some nv =>
      cases nv with
      | base =>
        have he : jsonSubKey st c k = jsonDefault st := by
          simp [jsonSubKey, hcell, hnode]
        rw [he]
        exact frame_jsonDefault h
      | leaf d =>
        have he : jsonSubKey st c k = jsonDefault st := by
          simp [jsonSubKey, hcell, hnode]
        rw [he]
        exact frame_jsonDefault h
      | arr kids =>
        have he : jsonSubKey st c k = jsonDefault st := by
          simp [jsonSubKey, hcell, hnode]
        rw [he]
        exact frame_jsonDefault h
      | obj kids =>
        have he : jsonSubKey st c k = objIndex st nid kids k := by
          simp [jsonSubKey, hcell, hnode]
        rw [he]
        have hkids : ∀ c' ∈ kids.map Prod.snd, nc ≤ c' := by
          intro c' hc'
          exact h.2.2.2 nid _ hnid hnode c' (by simpa [NodeV.childCells] using hc')
        cases hf : findKey kids k with
        | some slot =>
          have he2 : objIndex st nid kids k = (st, slot) := by
            simp [objIndex, hf]
          rw [he2]
          exact ⟨h, StepOk_refl nc nn st, hkids slot (findKey_mem_snd hf)⟩
        | none =>
          have he2 : objIndex st nid kids k =
              (setNode (newProxy st .base).1 nid
                (.obj (insertKey kids k (newProxy st .base).2)),
               (newProxy st .base).2) := by
            simp [objIndex, hf, newProxy]
          rw [he2]
          obtain ⟨ha, hb, hcc⟩ := @frame_newProxy _ _ _ .base h
            (by simp [NodeV.childCells])
          have hs := @frame_setNode _ _ _ nid
            (.obj (insertKey kids k (newProxy st .base).2)) ha
            (by omega) ?_
          · exact ⟨hs.1, StepOk_trans hb hs.2, hcc⟩
          · intro c' hc'
            simp only [NodeV.childCells] at hc'
            rcases insertKey_childMem hc' with h' | h'
            · have := hkids c' h'
              omega
            · rw [h']
              exact hcc

theorem frame_jsonSubIdx {nc nn : Nat} {st : St} {c : Nat} {i : Nat}
    (h : FrameSt nc nn st) (hc : nc ≤ c) :
    FrameSt nc nn (jsonSubIdx st c i).1 ∧ StepOk nc nn st (jsonSubIdx st c i).1 ∧
      nc ≤ (jsonSubIdx st c i).2 := by
  cases hcell : st.cells c with
  | none =>
    have he : jsonSubIdx st c i = jsonDefault st := by
      simp [jsonSubIdx, hcell]
    rw [he]
    exact frame_jsonDefault h
  | some nid =>
    have hnid : nn ≤ nid := h.2.2.1 c nid hc hcell
    cases hnode : st.nodes nid with
    | none =>
      have he : jsonSubIdx st c i = jsonDefault st := by
        simp [jsonSubIdx, hcell, hnode]
      rw [he]
      exact frame_jsonDefault h
    | some nv =>
      cases nv with
      | base =>
        have he : jsonSubIdx st c i = jsonDefault st := by
          simp [jsonSubIdx, hcell, hnode]
        rw [he]
        exact frame_jsonDefault h
      | leaf d =>
        have he : jsonSubIdx st c i = jsonDefault st := by
          simp [jsonSubIdx, hcell, hnode]
        rw [he]
        exact frame_jsonDefault h
      | obj kids =>
        have he : jsonSubIdx st c i = jsonDefault st := by
          simp [jsonSubIdx, hcell, hnode]
        rw [he]
        exact frame_jsonDefault h
      | arr kids =>
        by_cases hlen : i < kids.length
        · have he : jsonSubIdx st c i = (st, kids[i]) := by
            simp [jsonSubIdx, hcell, hnode, hlen]
          rw [he]
          refine ⟨h, StepOk_refl nc nn st, ?_⟩
          exact h.2.2.2 nid _ hnid hnode kids[i]
            (by simp only [NodeV.childCells]; exact List.getElem_mem hlen)
        · have he : jsonSubIdx st c i = newProxy st (.leaf ⟨none, .unset⟩) := by
            simp [jsonSubIdx, hcell, hnode, hlen]
          rw [he]
          exact frame_newProxy h (by simp [NodeV.childCells])

theorem frame_objAssignChild {nc nn : Nat} {st : St} {onid : Nat} {k : String}
    {cc : Nat} (h : FrameSt nc nn st) (honid : nn ≤ onid) (hcc : nc ≤ cc) :
    FrameSt nc nn (objAssignChild st onid k cc) ∧
      StepOk nc nn st (objAssignChild st onid k cc) := by
  cases hnode : st.nodes onid with
  | none =>
    have he : objAssignChild st onid k cc = st := by
      simp [objAssignChild, hnode]
    rw [he]
    exact ⟨h, StepOk_refl nc nn st⟩
  | some nv =>
    cases nv with
    | base =>
      have he : objAssignChild st onid k cc = st := by
        simp [objAssignChild, hnode]
      rw [he]
      exact ⟨h, StepOk_refl nc nn st⟩
    | leaf d =>
      have he : objAssignChild st onid k cc = st := by
        simp [objAssignChild, hnode]
      rw [he]
      exact ⟨h, StepOk_refl nc nn st⟩
    | arr kids =>
      have he : objAssignChild st onid k cc = st := by
        simp [objAssignChild, hnode]
      rw [he]
      exact ⟨h, StepOk_refl nc nn st⟩
    | obj kids =>
      have hkids : ∀ c' ∈ kids.map Prod.snd, nc ≤ c' := by
        intro c' hc'
        exact h.2.2.2 onid _ honid hnode c' (by simpa [NodeV.childCells] using hc')
      cases hf : findKey kids k with
      | some slot =>
        have he : objAssignChild st onid k cc = jsonAssignJson st slot cc := by
          simp [objAssignChild, hnode, objIndex, hf]
        rw [he]
        exact frame_jsonAssignJson h (hkids slot (findKey_mem_snd hf)) hcc
      | none =>
        have he : objAssignChild st onid k cc =
            jsonAssignJson
              (setNode (newProxy st .base).1 onid
                (.obj (insertKey kids k (newProxy st .base).2)))
              (newProxy st .base).2 cc := by
          simp [objAssignChild, hnode, objIndex, hf, newProxy]
        rw [he]
        obtain ⟨ha, hb, hc'⟩ := @frame_newProxy _ _ _ .base h
          (by simp [NodeV.childCells])
        have hs := @frame_setNode _ _ _ onid
          (.obj (insertKey kids k (newProxy st .base).2)) ha (by omega) ?_
        · have hj := @frame_jsonAssignJson _ _ _ ((newProxy st .base).2) cc
            hs.1 hc' (by omega)
          exact ⟨hj.1, StepOk_trans (StepOk_trans hb hs.2) hj.2⟩
        · intro c' hc2
          simp only [NodeV.childCells] at hc2
          rcases insertKey_childMem hc2 with h' | h'
          · have := hkids c' h'
            omega
          · rw [h']
            exact hc'

theorem frame_arrAddChild {nc nn : Nat} {st : St} {anid : Nat} {c : Nat}
    (h : FrameSt nc nn st) (hanid : nn ≤ anid) (hc : nc ≤ c) :
    FrameSt nc nn (arrAddChild st anid c) ∧
      StepOk nc nn st (arrAddChild st anid c) := by
  cases hnode : st.nodes anid with
  | none =>
    have he : arrAddChild st anid c = st := by
      simp [arrAddChild, hnode]
    rw [he]
    exact ⟨h, StepOk_refl nc nn st⟩
  | some nv =>
    cases nv with
    | base =>
      have he : arrAddChild st anid c = st := by
        simp [arrAddChild, hnode]
      rw [he]
      exact ⟨h, StepOk_refl nc nn st⟩
    | leaf d =>
      have he : arrAddChild st anid c = st := by
        simp [arrAddChild, hnode]
      rw [he]
      exact ⟨h, StepOk_refl nc nn st⟩
    | obj kids =>
      have he : arrAddChild st anid c = st := by
        simp [arrAddChild, hnode]
      rw [he]
      exact ⟨h, StepOk_refl nc nn st⟩
    | arr kids =>
      have he : arrAddChild st anid c = setNode st anid (.arr (kids ++ [c])) := by
        simp [arrAddChild, hnode]
      rw [he]
      apply frame_setNode h hanid
      intro c' hc'
      simp only [NodeV.childCells] at hc'
      rcases List.mem_append.mp hc' with h' | h'
      · exact h.2.2.2 anid _ hanid hnode c' (by simpa [NodeV.childCells] using h')
      · simp at h'
        omega

mutual

theorem frame_buildLit (t : JTree) (st : St) (nc nn : Nat) (h : FrameSt nc nn st) :
    FrameSt nc nn (buildLit st t).1 ∧ StepOk nc nn st (buildLit st t).1 ∧
      nc ≤ (buildLit st t).2 := by
  cases t with
  | leaf v m =>
    simp only [buildLit]
    exact frame_newProxy h (by simp [NodeV.childCells])
  | obj kids =>
    simp only [buildLit]
    obtain ⟨ha, hb, hcc⟩ := @frame_allocNode _ _ _ (.obj []) h
      (by simp [NodeV.childCells])
    obtain ⟨hd, he, hf⟩ := frame_allocCell ha hcc
    obtain ⟨hg, hi⟩ := frame_buildObjPairs kids _ (allocNode st (.obj [])).2 nc nn
      hd (by simpa using h.2.1)
    exact ⟨hg, StepOk_trans (StepOk_trans hb he) hi, hf⟩
  | arr kids =>
    simp only [buildLit]
    obtain ⟨ha, hb, hcc⟩ := @frame_allocNode _ _ _ (.arr []) h
      (by simp [NodeV.childCells])
    obtain ⟨hd, he, hf⟩ := frame_allocCell ha hcc
    obtain ⟨hg, hi⟩ := frame_buildArrElems kids _ (allocNode st (.arr [])).2 nc nn
      hd (by simpa using h.2.1)
    exact ⟨hg, StepOk_trans (StepOk_trans hb he) hi, hf⟩

theorem frame_buildObjPairs (kids : List (String × JTree)) (st : St) (onid : Nat)
    (nc nn : Nat) (h : FrameSt nc nn st) (honid : nn ≤ onid) :
    FrameSt nc nn (buildObjPairs st onid kids) ∧
      StepOk nc nn st (buildObjPairs st onid kids) := by
  cases kids with
  | nil => exact ⟨h, StepOk_refl nc nn st⟩
  | cons kv rest =>
    obtain ⟨k, t⟩ := kv
    simp only [buildObjPairs]
    obtain ⟨ha, hb, hcc⟩ := frame_buildLit t st nc nn h
    obtain ⟨hd, he⟩ := frame_objAssignChild ha honid hcc
    obtain ⟨hf, hg⟩ := frame_buildObjPairs rest _ onid nc nn hd honid
    exact ⟨hf, StepOk_trans (StepOk_trans hb he) hg⟩

theorem frame_buildArrElems (kids : List JTree) (st : St) (anid : Nat)
    (nc nn : Nat) (h : FrameSt nc nn st) (hanid : nn ≤ anid) :
    FrameSt nc nn (buildArrElems st anid kids) ∧
      StepOk nc nn st (buildArrElems st anid kids) := by
  cases kids with
  | nil => exact ⟨h, StepOk_refl nc nn st⟩
  | cons t rest =>
    simp only [buildArrElems]
    obtain ⟨ha, hb, hcc⟩ := frame_buildLit t st nc nn h
    obtain ⟨hd, he⟩ := frame_arrAddChild ha hanid hcc
    obtain ⟨hf, hg⟩ := frame_buildArrElems rest _ anid nc nn hd hanid
    exact ⟨hf, StepOk_trans (StepOk_trans hb he) hg⟩

end

theorem frame_navigate (path : List MStep) :
    ∀ (st : St) (c : Nat) (nc nn : Nat), FrameSt nc nn st → nc ≤ c →
    FrameSt nc nn (navigate st c path).1 ∧
      StepOk nc nn st (navigate st c path).1 ∧ nc ≤ (navigate st c path).2 := by
  induction path with
  | nil => exact fun st c nc nn h hc => ⟨h, StepOk_refl nc nn st, hc⟩
  | cons step rest ih =>
    intro st c nc nn h hc
    cases step with
    | key k =>
      have he : navigate st c (.key k :: rest) =
          navigate (jsonSubKey st c k).1 (jsonSubKey st c k).2 rest := rfl
      rw [he]
      obtain ⟨ha, hb, hcc⟩ := frame_jsonSubKey h hc
      obtain ⟨hd, hg, hf⟩ := ih _ _ nc nn ha hcc
      exact ⟨hd, StepOk_trans hb hg, hf⟩
    | idx i =>
      have he : navigate st c (.idx i :: rest) =
          navigate (jsonSubIdx st c i).1 (jsonSubIdx st c i).2 rest := rfl
      rw [he]
      obtain ⟨ha, hb, hcc⟩ := frame_jsonSubIdx h hc
      obtain ⟨hd, hg, hf⟩ := ih _ _ nc nn ha hcc
      exact ⟨hd, StepOk_trans hb hg, hf⟩

theorem frame_runMut {nc nn : Nat} {st : St} {c : Nat} (mu : Mut)
    (h : FrameSt nc nn st) (hc : nc ≤ c) :
    FrameSt nc nn (runMut st c mu) ∧ StepOk nc nn st (runMut st c mu) := by
  cases mu with
  | assignVal path d =>
    have he : runMut st c (.assignVal path d) =
        jsonAssignVal (navigate st c path).1 (navigate st c path).2 d := rfl
    rw [he]
    obtain ⟨ha, hb, hcc⟩ := frame_navigate path st c nc nn h hc
    obtain ⟨hd, hg⟩ := frame_jsonAssignVal ha hcc
    exact ⟨hd, StepOk_trans hb hg⟩
  | assignLit path t =>
    have he : runMut st c (.assignLit path t) =
        jsonAssignJson (buildLit (navigate st c path).1 t).1
          (navigate st c path).2 (buildLit (navigate st c path).1 t).2 := rfl
    rw [he]
    obtain ⟨ha, hb, hcc⟩ := frame_navigate path st c nc nn h hc
    obtain ⟨hd, hg, hf⟩ := frame_buildLit t _ nc nn ha
    obtain ⟨hi, hj⟩ := frame_jsonAssignJson hd hcc hf
    exact ⟨hi, StepOk_trans (StepOk_trans hb hg) hj⟩

theorem frame_runMuts {nc nn : Nat} (muts : List Mut) :
    ∀ (st : St) (c : Nat), FrameSt nc nn st → nc ≤ c →
    FrameSt nc nn (runMuts st c muts) ∧ StepOk nc nn st (runMuts st c muts) := by
  induction muts with
  | nil => exact fun st c h hc => ⟨h, StepOk_refl nc nn st⟩
  | cons mu rest ih =>
    intro st c h hc
    have he : runMuts st c (mu :: rest) = runMuts (runMut st c mu) c rest := rfl
    rw [he]
    obtain ⟨ha, hb⟩ := frame_runMut mu h hc
    obtain ⟨hd, hg⟩ := ih _ c ha hc
    exact ⟨hd, StepOk_trans hb hg⟩

/-- `clone` only allocates: it leaves every existing id untouched, and the
region it builds is closed above the marks. -/
theorem clone_frame : ∀ f : Nat,
    (∀ (st : St) (c : Nat) (p : St × Nat),
      cloneCell f st c = some p → ∀ nc nn, FrameSt nc nn st →
      FrameSt nc nn p.1 ∧ StepOk nc nn st p.1 ∧ nc ≤ p.2) ∧
    (∀ (st : St) (nv : NodeV) (p : St × NodeV),
      cloneNodeV f st nv = some p → ∀ nc nn, FrameSt nc nn st →
      FrameSt nc nn p.1 ∧ StepOk nc nn st p.1 ∧
        ∀ c ∈ p.2.childCells, nc ≤ c) ∧
    (∀ (st : St) (kids : List (String × Nat)) (p : St × List (String × Nat)),
      cloneEntries f st kids = some p → ∀ nc nn, FrameSt nc nn st →
      FrameSt nc nn p.1 ∧ StepOk nc nn st p.1 ∧
        ∀ c ∈ p.2.map Prod.snd, nc ≤ c) ∧
    (∀ (st : St) (kids : List Nat) (p : St × List Nat),
      cloneElems f st kids = some p → ∀ nc nn, FrameSt nc nn st →
      FrameSt nc nn p.1 ∧ StepOk nc nn st p.1 ∧ ∀ c ∈ p.2, nc ≤ c) := by
  intro f
  induction f with
  | zero =>
    refine ⟨?_, ?_, ?_, ?_⟩ <;> intro st x p h <;> simp [cloneCell,
      cloneNodeV, cloneEntries, cloneElems] at h
  | succ f ih =>
    obtain ⟨ihC, ihN, ihE, ihL⟩ := ih
    refine ⟨?_, ?_, ?_, ?_⟩
    · intro st c p h nc nn hfr
      simp only [cloneCell] at h
      cases hcell : st.cells c with
      | none => rw [hcell] at h; simp at h
      | some nid =>
        rw [hcell] at h
        simp only [Option.bind_eq_bind, Option.some_bind] at h
        cases hnode : st.nodes nid with
        | none => rw [hnode] at h; simp at h
        | some nv =>
          rw [hnode] at h
          simp only [Option.bind_eq_bind, Option.some_bind] at h
          cases hcn : cloneNodeV f st nv with
          | none => rw [hcn] at h; simp at h
          | some q =>
            rw [hcn] at h
            simp only [Option.bind_eq_bind, Option.some_bind] at h
            injection h with h1
            subst h1
            obtain ⟨ha, hb, hcc⟩ := ihN st nv q hcn nc nn hfr
            obtain ⟨hd, he, hf⟩ := frame_allocNode ha hcc
            obtain ⟨hg, hi, hj⟩ := frame_allocCell hd hf
            exact ⟨hg, StepOk_trans hb (StepOk_trans he hi), hj⟩
    · intro st nv p h nc nn hfr
      cases nv with
      | base =>
        simp only [cloneNodeV] at h
        injection h with h1
        subst h1
        exact ⟨hfr, StepOk_refl nc nn st, by simp [NodeV.childCells]⟩
      | leaf d =>
        simp only [cloneNodeV] at h
        injection h with h1
        subst h1
        exact ⟨hfr, StepOk_refl nc nn st, by simp [NodeV.childCells]⟩
      | obj kids =>
        simp only [cloneNodeV] at h
        cases hce : cloneEntries f st kids with
        | none => rw [hce] at h; simp at h
        | some q =>
          rw [hce] at h
          simp only [Option.bind_eq_bind, Option.some_bind] at h
          injection h with h1
          subst h1
          obtain ⟨ha, hb, hcc⟩ := ihE st kids q hce nc nn hfr
          exact ⟨ha, hb, by simpa [NodeV.childCells] using hcc⟩
      | arr kids =>
        simp only [cloneNodeV] at h
        cases hce : cloneElems f st kids with
        | none => rw [hce] at h; simp at h
        | some q =>
          rw [hce] at h
          simp only [Option.bind_eq_bind, Option.some_bind] at h
          injection h with h1
          subst h1
          obtain ⟨ha, hb, hcc⟩ := ihL st kids q hce nc nn hfr
          exact ⟨ha, hb, by simpa [NodeV.childCells] using hcc⟩
    · intro st kids p h nc nn hfr
      cases kids with
      | nil =>
        simp only [cloneEntries] at h
        injection h with h1
        subst h1
        exact ⟨hfr, StepOk_refl nc nn st, by simp⟩
      | cons kc rest =>
        obtain ⟨k, c⟩ := kc
        simp only [cloneEntries] at h
        cases hcc : cloneCell f st c with
        | none => rw [hcc] at h; simp at h
        | some q =>
          rw [hcc] at h
          simp only [Option.bind_eq_bind, Option.some_bind] at h
          cases hcr : cloneEntries f q.1 rest with
          | none => rw [hcr] at h; simp at h
          | some r =>
            rw [hcr] at h
            simp only [Option.bind_eq_bind, Option.some_bind] at h
            injection h with h1
            subst h1
            obtain ⟨ha, hb, hc2⟩ := ihC st c q hcc nc nn hfr
            obtain ⟨hd, he, hf⟩ := ihE q.1 rest r hcr nc nn ha
            refine ⟨hd, StepOk_trans hb he, ?_⟩
            intro c2 hc3
            rw [List.map_cons, List.mem_cons] at hc3
            rcases hc3 with h2 | h2
            · subst h2
              exact hc2
            · exact hf c2 h2
    · intro st kids p h nc nn hfr
      cases kids with
      | nil =>
        simp only [cloneElems] at h
        injection h with h1
        subst h1
        exact ⟨hfr, StepOk_refl nc nn st, by simp⟩
      | cons c rest =>
        simp only [cloneElems] at h
        cases hcc : cloneCell f st c with
        | none => rw [hcc] at h; simp at h
        | some q =>
          rw [hcc] at h
          simp only [Option.bind_eq_bind, Option.some_bind] at h
          cases hcr : cloneElems f q.1 rest with
          | none => rw [hcr] at h; simp at h
          | some r =>
            rw [hcr] at h
            simp only [Option.bind_eq_bind, Option.some_bind] at h
            injection h with h1
            subst h1
            obtain ⟨ha, hb, hc2⟩ := ihC st c q hcc nc nn hfr
            obtain ⟨hd, he, hf⟩ := ihL q.1 rest r hcr nc nn ha
            refine ⟨hd, StepOk_trans hb he, ?_⟩
            intro c2 hc3
            rw [List.mem_cons] at hc3
            rcases hc3 with h2 | h2
            · subst h2
              exact hc2
            · exact hf c2 h2

/-- Serialization reads only the part of the store reachable through ids
below the allocation marks, so any evolution that preserves that part
preserves every dump. -/
theorem dump_agree : ∀ (f : Nat) (st st2 : St),
    (∀ c nid, st.cells c = some nid → nid < st.nextNode) →
    (∀ nid nv, st.nodes nid = some nv → ∀ c ∈ nv.childCells, c < st.nextCell) →
    (∀ x, x < st.nextCell → st2.cells x = st.cells x) →
    (∀ x, x < st.nextNode → st2.nodes x = st.nodes x) →
    (∀ c, c < st.nextCell → dumpCell f st2 c = dumpCell f st c) ∧
    (∀ nv, (∀ c ∈ NodeV.childCells nv, c < st.nextCell) →
      dumpNodeV f st2 nv = dumpNodeV f st nv) ∧
    (∀ kids, (∀ c ∈ kids.map Prod.snd, c < st.nextCell) →
      dumpEntries f st2 kids = dumpEntries f st kids) ∧
    (∀ kids, (∀ c ∈ kids, c < st.nextCell) →
      dumpElems f st2 kids = dumpElems f st kids) := by
  intro f
  induction f with
  | zero => exact fun st st2 _ _ _ _ => ⟨fun _ _ => rfl, fun _ _ => rfl,
      fun _ _ => rfl, fun _ _ => rfl⟩
  | succ f ih =>
    intro st st2 h1 h2 hlc hln
    obtain ⟨ihc, ihn, ihe, ihl⟩ := ih st st2 h1 h2 hlc hln
    refine ⟨?_, ?_, ?_, ?_⟩
    · intro c hc
      rw [dumpCell_succ, dumpCell_succ]
      have : derefNode st2 c = derefNode st c := by
        unfold derefNode
        rw [hlc c hc]
        cases hcell : st.cells c with
        | none => rfl
        | some nid =>
          simp only [Option.some_bind]
          exact hln nid (h1 c nid hcell)
      rw [this]
      cases hder : derefNode st c with
      | none => rfl
      | some nv =>
        simp only [Option.some_bind]
        apply ihn
        intro c' hc'
        obtain ⟨nid, hcell, hnode⟩ : ∃ nid, st.cells c = some nid ∧
            st.nodes nid = some nv := by
          cases hcc : st.cells c with
          | none => simp [derefNode, hcc] at hder
          | some nid => exact ⟨nid, rfl, by simpa [derefNode, hcc] using hder⟩
        exact h2 nid nv hnode c' hc'
    · intro nv hnv
      cases nv with
      | base => rfl
      | leaf d => rfl
      | obj kids =>
        have he : dumpEntries f st2 kids = dumpEntries f st kids :=
          ihe kids (by simpa [NodeV.childCells] using hnv)
        simp only [dumpNodeV, he]
      | arr kids =>
        have he : dumpElems f st2 kids = dumpElems f st kids :=
          ihl kids (by simpa [NodeV.childCells] using hnv)
        simp only [dumpNodeV, he]
    · intro kids hkids
      cases kids with
      | nil => rfl
      | cons kc rest =>
        obtain ⟨k, c⟩ := kc
        have hc : c < st.nextCell := hkids c (by simp)
        have hrest : ∀ c' ∈ rest.map Prod.snd, c' < st.nextCell := by
          intro c' hc'
          refine hkids c' ?_
          rw [List.map_cons, List.mem_cons]
          right
          exact hc'
        simp only [dumpEntries, ihc c hc, ihe rest hrest]
    · intro kids hkids
      cases kids with
      | nil => rfl
      | cons c rest =>
        have hc : c < st.nextCell := hkids c (by simp)
        have hrest : ∀ c' ∈ rest, c' < st.nextCell := by
          intro c' hc'
          exact hkids c' (by simp [hc'])
        simp only [dumpElems, ihc c hc, ihl rest hrest]

/-- C3.  `c = a.clone()` deep-copies the subtree into storage sharing
nothing with `a`: every subsequent mutation through `c` — chained subscripts
ending in a primitive assignment or in whole-value assignment of a freshly
built literal, at any depth — leaves every cell and node that existed at
clone time unchanged, and in particular `a` serializes exactly as before. -/
theorem c3_clone_mutations_independent (st : St) (a nid : Nat) (f : Nat)
    (p : St × Nat) (hg : Good st) (ha : st.cells a = some nid)
    (hclone : jsonClone f st a = some p) (muts : List Mut) :
    (∀ x, x < st.nextCell → (runMuts p.1 p.2 muts).cells x = st.cells x) ∧
    (∀ x, x < st.nextNode → (runMuts p.1 p.2 muts).nodes x = st.nodes x) ∧
    ∀ fuel, dumpCell fuel (runMuts p.1 p.2 muts) a = dumpCell fuel st a := by
  have hfr0 : FrameSt st.nextCell st.nextNode st := by
    refine ⟨le_refl _, le_refl _, ?_, ?_⟩
    · intro c nid' hc hcell
      have := (hg.1 c nid' hcell).1
      omega
    · intro nid' nv hnid hnode
      have := (hg.2 nid' nv hnode).1
      omega
  obtain ⟨hfr1, hstep1, hrc⟩ := (clone_frame f).1 st a p hclone _ _ hfr0
  obtain ⟨hfr2, hstep2⟩ := frame_runMuts muts p.1 p.2 hfr1 hrc
  have hcomb := StepOk_trans hstep1 hstep2
  refine ⟨hcomb.1, hcomb.2, ?_⟩
  intro fuel
  have hd := dump_agree fuel st (runMuts p.1 p.2 muts)
    (fun c nid' hcell => (hg.1 c nid' hcell).2)
    (fun nid' nv hnode => (hg.2 nid' nv hnode).2)
    hcomb.1 hcomb.2
  exact hd.1 a (hg.1 a nid ha).1

/-- C3 witness: cloning `{"age": 27}` and writing `"name"` through the clone
leaves the original's serialization unchanged. -/
theorem c3_clone_mutations_witness :
    dumpCell 10
      (runMuts
        ((jsonClone 10 (buildLit St.empty (.obj [("age", .leaf (some "27") .num)])).1
            (buildLit St.empty (.obj [("age", .leaf (some "27") .num)])).2).getD
          (St.empty, 0)).1
        ((jsonClone 10 (buildLit St.empty (.obj [("age", .leaf (some "27") .num)])).1
            (buildLit St.empty (.obj [("age", .leaf (some "27") .num)])).2).getD
          (St.empty, 0)).2
        [.assignVal [.key "name"] (valOfString "John")])
      (buildLit St.empty (.obj [("age", .leaf (some "27") .num)])).2 =
    dumpCell 10 (buildLit St.empty (.obj [("age", .leaf (some "27") .num)])).1
      (buildLit St.empty (.obj [("age", .leaf (some "27") .num)])).2 := by
  have hg : Good (buildLit St.empty (.obj [("age", .leaf (some "27") .num)])).1 :=
    (good_buildLit _ _ good_empty).1
  have h := c3_clone_mutations_independent
    (buildLit St.empty (.obj [("age", .leaf (some "27") .num)])).1
    (buildLit St.empty (.obj [("age", .leaf (some "27") .num)])).2 0 10
    ((jsonClone 10 (buildLit St.empty (.obj [("age", .leaf (some "27") .num)])).1
        (buildLit St.empty (.obj [("age", .leaf (some "27") .num)])).2).getD
      (St.empty, 0))
    hg (by rfl) (by rfl)
    [.assignVal [.key "name"] (valOfString "John")]
  exact h.2.2 10

/-- C9.  For every object built by a sequence of keyed writes `j[k] = v` on a
fresh `Json()` — in any insertion order, duplicate keys overwriting —
serialization renders the children of the backing `std::map`, whose keys are
in strictly increasing lexicographic order; each member is rendered as the
quoted key, `": "`, and the child's rendering, with `", "` between members
and no trailing comma.  In particular inserting `z`, `a`, `m` and then
serializing emits the keys in the order `a`, `m`, `z`. -/
theorem c9_object_keys_sorted :
    (∀ ws : List (String × ValueData),
      List.Chain' (fun a b => keyLt a.1 b.1 = true) (insertVals ws) ∧
      dumpCell ((insertVals ws).length + 4)
        (runWrites (jsonDefault St.empty).1 (jsonDefault St.empty).2 ws)
        (jsonDefault St.empty).2 =
        some ("\x7b" ++ renderVals (insertVals ws) ++ "\x7d")) ∧
    dumpCell 8
      (runWrites (jsonDefault St.empty).1 (jsonDefault St.empty).2
        [("z", valOfInt (natStr 1)), ("a", valOfInt (natStr 2)),
         ("m", valOfInt (natStr 3))])
      (jsonDefault St.empty).2 =
      some "\x7b\"a\": 2, \"m\": 3, \"z\": 1\x7d" := by
  constructor
  · intro ws
    have hg : Good (jsonDefault St.empty).1 :=
      good_newProxy good_empty (by simp [NodeV.childCells])
    obtain ⟨kids', h0', hn', hs', hsort'⟩ :=
      runWrites_spec ws (jsonDefault St.empty).1 [] [] hg rfl rfl trivial (by simp)
    have hins : insertVals ws =
        ws.foldl (fun acc kv => mapInsertV acc kv.1 kv.2) [] := rfl
    have hj : (jsonDefault St.empty).2 = 0 := rfl
    rw [hins, hj]
    refine ⟨hsort', ?_⟩
    have hlen : kids'.length =
        (ws.foldl (fun acc kv => mapInsertV acc kv.1 kv.2) []).length :=
      SlotsOk_length hs'
    exact dumpCell_obj_slots h0' hn' hs' (by omega)
  · rfl

/-- C10.  On an object root, merely evaluating `json[k]` for an absent key
`k` — a read, no assignment — inserts a fresh child slot under `k` into the
object's map (`std::map::operator[]` default-inserts), so `k` is
subsequently serialized; the auto-created child is a default base `Node`
whose `dump` renders as empty text.  Concretely, `{"a": 1}` serializes as
`{"a": 1, "k": }` after the read of `"k"`. -/
theorem c10_read_inserts_key :
    (∀ (st : St) (b nid : Nat) (kids : List (String × Nat)) (key : String)
        (st' : St) (c : Nat),
      Good st → st.cells b = some nid → st.nodes nid = some (.obj kids) →
      findKey kids key = none → jsonSubKey st b key = (st', c) →
      st'.nodes nid = some (.obj (insertKey kids key c)) ∧
      findKey (insertKey kids key c) key = some c ∧
      derefNode st' c = some .base ∧
      dumpCell 2 st' c = some "") ∧
    (let (st1, b) := buildLit St.empty (.obj [("a", .leaf (some "1") .num)])
     dumpCell 10 st1 b = some "\x7b\"a\": 1\x7d" ∧
     dumpCell 10 (jsonSubKey st1 b "k").1 b = some "\x7b\"a\": 1, \"k\": \x7d") := by
  constructor
  · intro st b nid kids key st' c hg hb hn hk h
    obtain ⟨h1, h2, h3, h4⟩ :=
      jsonSubKey_missing_spec st b nid kids key st' c hg hb hn hk h
    refine ⟨h2, findKey_insertKey kids key _, h1, ?_⟩
    rw [show (2 : Nat) = 1 + 1 from rfl, dumpCell_succ, h1]
    rfl
  · exact ⟨by rfl, by rfl⟩

/-- C10 witness: the general conjunct applied to the empty object and key
`"k"`. -/
theorem c10_read_inserts_key_witness :
    (jsonSubKey (jsonDefault St.empty).1 (jsonDefault St.empty).2 "k").1.nodes 0 =
      some (.obj (insertKey [] "k"
        (jsonSubKey (jsonDefault St.empty).1 (jsonDefault St.empty).2 "k").2)) ∧
    dumpCell 2 (jsonSubKey (jsonDefault St.empty).1 (jsonDefault St.empty).2 "k").1
      (jsonSubKey (jsonDefault St.empty).1 (jsonDefault St.empty).2 "k").2 =
      some "" := by
  have h := c10_read_inserts_key.1 (jsonDefault St.empty).1 (jsonDefault St.empty).2
    0 [] "k"
    (jsonSubKey (jsonDefault St.empty).1 (jsonDefault St.empty).2 "k").1
    (jsonSubKey (jsonDefault St.empty).1 (jsonDefault St.empty).2 "k").2
    (good_newProxy good_empty (by simp [NodeV.childCells]))
    (by rfl) (by rfl) (by rfl) (by rfl)
  exact ⟨h.1, h.2.2.2⟩

/-- C4 counterexample.  The chained write `Json()["x"]["y"] = 5` does *not*
yield `{"x": {"y": 5}}`: the root serializes as `{"x": }` — the first
subscript auto-created a base `Node` child under `"x"`, the second subscript
found it not key-indexable and returned a fresh disconnected `Json()`, and
the assignment landed there. -/
theorem c4_chain_counterexample :
    (let (st1, j) := jsonDefault St.empty
     let (st2, c1) := jsonSubKey st1 j "x"
     let (st3, c2) := jsonSubKey st2 c1 "y"
     let st4 := jsonAssignVal st3 c2 (valOfInt (natStr 5))
     dumpCell 10 st4 j) = some "\x7b\"x\": \x7d" ∧
    dumpT (.obj [("x", .obj [("y", .leaf (some (natStr 5)) .num)])]) =
      "\x7b\"x\": \x7b\"y\": 5\x7d\x7d" ∧
    ("\x7b\"x\": \x7d" : String) ≠ "\x7b\"x\": \x7b\"y\": 5\x7d\x7d" := by
  refine ⟨by rfl, by rfl, by decide⟩

/-- C4 amended.  On a default-constructed `Json`, the chained subscript write
`Json()["x"]["y"] = 5` leaves the root as `{"x": }`: the missing-key
subscript creates a default base `Node` child (rendering as empty text,
not an empty object), the second subscript on that non-key-indexable child
returns a fresh disconnected empty-object `Json`, and the assignment is
applied to that disconnected value and lost. -/
theorem c4_chain_amended :
    (let (st1, j) := jsonDefault St.empty
     let (st2, c1) := jsonSubKey st1 j "x"
     let (st3, c2) := jsonSubKey st2 c1 "y"
     let st4 := jsonAssignVal st3 c2 (valOfInt (natStr 5))
     (dumpCell 10 st4 j, derefNode st4 c1, derefNode st4 c2,
      derefNode st3 c2)) =
    (some "\x7b\"x\": \x7d", some .base,
     some (.leaf (valOfInt (natStr 5))), some (.obj [])) := by
  rfl

/-- C8.  Parsing `{"a":}` raises `MalformedJson` (no tree is produced and the
failure surfaces at `parse_str`); in general, `parse_recursively` at a cursor
whose character can begin no recognized value form — not an object or array
opener, not a `true`/`false` literal prefix, not a digit, not a quote —
throws `MalformedJson`. -/
theorem c8_malformed :
    parseStr "\x7b\"a\":\x7d" = .error .malformed ∧
    ∀ (c : Char) (rest : List Char) (f : Nat),
      c ≠ '{' → c ≠ '[' →
      (c :: rest).take 4 ≠ "true".data →
      (c :: rest).take 5 ≠ "false".data →
      isNum c = false → c ≠ '"' →
      parseRec (f + 1) (c :: rest) = .error .malformed := by
  refine ⟨by rfl, ?_⟩
  intro c rest f hbrace hbrack htrue hfalse hnum hquote
  have hhead : (c :: rest).head? = some c := rfl
  simp only [parseRec, hhead, Option.some.injEq]
  rw [if_neg hbrace, if_neg hbrack]
  simp only [parseValue, if_neg htrue, if_neg hfalse]
  simp [hnum, hquote]

/-- C8 witness: the general conjunct applied at the concrete cursor
character `x`. -/
theorem c8_malformed_witness :
    parseRec 1 ['x'] = .error .malformed :=
  c8_malformed.2 'x' [] 0 (by decide) (by decide) (by decide) (by decide)
    (by decide) (by decide)

/-! ### Decimal rendering: `natStr` is a section of `digitsVal` -/

theorem isNum_digitChar (d : Nat) : isNum (digitChar d) = true := by
  unfold digitChar
  split <;> rfl

theorem digitChar_toNat {d : Nat} (hd : d < 10) :
    (digitChar d).toNat - 48 = d := by
  interval_cases d <;> rfl

theorem natStrAux_eq_digits :
    ∀ f n acc, n ≤ f →
      natStrAux f n acc = ((Nat.digits 10 n).reverse.map digitChar) ++ acc := by
  intro f
  induction f with
  | zero =>
    intro n acc h
    have h0 : n = 0 := Nat.le_zero.mp h
    subst h0
    simp [natStrAux]
  | succ f ih =>
    intro n acc h
    by_cases h0 : n = 0
    · subst h0; simp [natStrAux]
    · have hdiv : n / 10 < n := Nat.div_lt_self (Nat.pos_of_ne_zero h0)
        (by norm_num)
      simp only [natStrAux, if_neg h0]
      rw [ih (n / 10) _ (by omega)]
      rw [Nat.digits_def' (by norm_num : 1 < 10) (Nat.pos_of_ne_zero h0)]
      simp

theorem digitsVal_foldl (l : List Char) (a : Nat) :
    l.foldl (fun x c => 10 * x + (c.toNat - 48)) a
      = a * 10 ^ l.length + digitsVal l := by
  induction l generalizing a with
  | nil => simp [digitsVal]
  | cons c cs ih =>
    simp only [List.foldl_cons, digitsVal, List.length_cons]
    rw [ih, ih (10 * 0 + (c.toNat - 48))]
    ring

theorem digitsVal_append (l1 l2 : List Char) :
    digitsVal (l1 ++ l2) = digitsVal l1 * 10 ^ l2.length + digitsVal l2 := by
  unfold digitsVal
  rw [List.foldl_append]
  exact digitsVal_foldl l2 _

theorem digitsVal_rev_digits :
    ∀ L : List Nat, (∀ d ∈ L, d < 10) →
      digitsVal ((L.map digitChar).reverse) = Nat.ofDigits 10 L := by
  intro L
  induction L with
  | nil => intro _; simp [digitsVal, Nat.ofDigits_nil]
  | cons d ds ih =>
    intro h
    have hd : d < 10 := h d (by simp)
    rw [List.map_cons, List.reverse_cons, digitsVal_append,
      ih (fun x hx => h x (by simp [hx]))]
    have h1 : digitsVal [digitChar d] = d := by
      show 10 * 0 + ((digitChar d).toNat - 48) = d
      rw [digitChar_toNat hd]; ring
    rw [h1, Nat.ofDigits_cons, List.length_singleton]
    push_cast
    ring

theorem digitsVal_natStr (n : Nat) : digitsVal (natStr n).data = n := by
  unfold natStr
  by_cases h : n = 0
  · subst h; simp; rfl
  · rw [if_neg h]
    show digitsVal (natStrAux (n + 1) n []) = n
    rw [natStrAux_eq_digits _ _ _ (by omega), List.append_nil]
    have hm : (Nat.digits 10 n).reverse.map digitChar
        = ((Nat.digits 10 n).map digitChar).reverse := by
      simp
    rw [hm, digitsVal_rev_digits _
      (fun d hd => Nat.digits_lt_base (by norm_num) hd),
      Nat.ofDigits_digits]

theorem natStrAux_all_num :
    ∀ f n acc, (∀ c ∈ acc, isNum c = true) →
      ∀ c ∈ natStrAux f n acc, isNum c = true := by
  intro f
  induction f with
  | zero => intro n acc hacc; simpa [natStrAux] using hacc
  | succ f ih =>
    intro n acc hacc
    by_cases h0 : n = 0
    · subst h0; simpa [natStrAux] using hacc
    · simp only [natStrAux, if_neg h0]
      exact ih (n / 10) _ (fun c hc => by
        rcases List.mem_cons.mp hc with h | h
        · subst h; exact isNum_digitChar _
        · exact hacc c h)

theorem natStr_all_num (n : Nat) : ∀ c ∈ (natStr n).data, isNum c = true := by
  unfold natStr
  by_cases h : n = 0
  · subst h; intro c hc; simp at hc; subst hc; rfl
  · rw [if_neg h]
    exact natStrAux_all_num (n + 1) n [] (by intro c hc; cases hc)

theorem natStr_ne_nil (n : Nat) : (natStr n).data ≠ [] := by
  unfold natStr
  by_cases h : n = 0
  · subst h; simp
  · rw [if_neg h]
    show natStrAux (n + 1) n [] ≠ []
    rw [natStrAux_eq_digits _ _ _ (by omega), List.append_nil]
    simp [Nat.digits_ne_nil_iff_ne_zero.mpr h]

/-! ### Character classification facts for the parser -/

theorem isNum_ne_special {c : Char} (h : isNum c = true) :
    c ≠ '\x7b' ∧ c ≠ '[' ∧ c ≠ 't' ∧ c ≠ 'f' ∧ c ≠ '"' ∧ c ≠ '.' ∧
      c ≠ ',' ∧ c ≠ '\x7d' ∧ c ≠ ']' := by
  refine ⟨?_, ?_, ?_, ?_, ?_, ?_, ?_, ?_, ?_⟩ <;>
    (intro he; subst he; exact absurd h (by decide))

theorem isNum_not_space {c : Char} (h : isNum c = true) : isSpace c = false := by
  by_contra hs
  rw [Bool.not_eq_false] at hs
  simp only [isSpace, Bool.or_eq_true, decide_eq_true_eq] at hs
  rcases hs with ((((h1 | h1) | h1) | h1) | h1) | h1 <;>
    (subst h1; exact absurd h (by decide))

theorem canonNum_spec {s : String} (h : canonNum s = true) :
    s = natStr (digitsVal s.data) ∧ digitsVal s.data ≤ LONGMAX := by
  unfold canonNum at h
  rw [Bool.and_eq_true, decide_eq_true_eq, beq_iff_eq] at h
  exact ⟨h.2, h.1⟩

theorem string_mk_data (s : String) : String.mk s.data = s := rfl

theorem strData_append (s t : String) : (s ++ t).data = s.data ++ t.data := rfl

/-! ### The whitespace pre-pass on serializer output -/

theorem stripAux_nil (ins : Bool) : stripAux [] ins = [] := rfl

theorem stripAux_char {c : Char} (cs : List Char) (hq : c ≠ '"')
    (hs : isSpace c = false) :
    stripAux (c :: cs) false = c :: stripAux cs false := by
  simp [stripAux, hq, hs]

theorem stripAux_space {c : Char} (cs : List Char) (hq : c ≠ '"')
    (hs : isSpace c = true) :
    stripAux (c :: cs) false = stripAux cs false := by
  simp [stripAux, hq, hs]

theorem stripAux_quote_false (cs : List Char) :
    stripAux ('"' :: cs) false = '"' :: stripAux cs true := by
  simp [stripAux, isSpace]

theorem stripAux_quote_true (cs : List Char) :
    stripAux ('"' :: cs) true = '"' :: stripAux cs false := by
  simp [stripAux, isSpace]

theorem stripAux_inside :
    ∀ cs b, (∀ c ∈ cs, c ≠ '"') →
      stripAux (cs ++ b) true = cs ++ stripAux b true := by
  intro cs
  induction cs with
  | nil => intro b _; rfl
  | cons c cs ih =>
    intro b h
    have hc : c ≠ '"' := h c (by simp)
    have ih' := ih b (fun x hx => h x (by simp [hx]))
    simp [stripAux, hc, ih']

theorem stripAux_keep_clean :
    ∀ cs b, (∀ c ∈ cs, isSpace c = false ∧ c ≠ '"') →
      stripAux (cs ++ b) false = cs ++ stripAux b false := by
  intro cs
  induction cs with
  | nil => intro b _; rfl
  | cons c cs ih =>
    intro b h
    have hc := h c (by simp)
    have ih' := ih b (fun x hx => h x (by simp [hx]))
    rw [List.cons_append, stripAux_char _ hc.2 hc.1, ih']
    rfl

theorem stripAux_quoted (k : List Char) (b : List Char)
    (h : ∀ c ∈ k, c ≠ '"') :
    stripAux (('"' :: (k ++ ['"'])) ++ b) false
      = '"' :: (k ++ '"' :: stripAux b false) := by
  rw [List.cons_append, stripAux_quote_false, List.append_assoc,
    List.singleton_append, stripAux_inside k _ h, stripAux_quote_true]

theorem supportedEntries_parts {k : String} {t : JTree}
    {rest : List (String × JTree)}
    (h : supportedEntries ((k, t) :: rest) = true) :
    '"' ∉ k.data ∧ supportedB t = true ∧ supportedEntries rest = true := by
  unfold supportedEntries at h
  rw [Bool.and_eq_true, Bool.and_eq_true, Bool.and_eq_true,
    decide_eq_true_eq] at h
  exact ⟨h.1.1.1, h.1.1.2, h.1.2⟩

theorem supportedElems_parts {t : JTree} {rest : List JTree}
    (h : supportedElems (t :: rest) = true) :
    supportedB t = true ∧ supportedElems rest = true := by
  unfold supportedElems at h
  rw [Bool.and_eq_true] at h
  exact h

theorem supportedEntries_head_lt :
    ∀ (rest : List (String × JTree)) (k : String) (t : JTree),
      supportedEntries ((k, t) :: rest) = true →
      ∀ k2 ∈ rest.map Prod.fst, keyLt k k2 = true := by
  intro rest
  induction rest with
  | nil => intro k t _ k2 h2; simp at h2
  | cons p rs ih =>
    intro k t h k2 h2
    obtain ⟨k1, t1⟩ := p
    have hlt : keyLt k k1 = true := by
      unfold supportedEntries at h
      rw [Bool.and_eq_true] at h
      exact h.2
    have hrest : supportedEntries ((k1, t1) :: rs) = true :=
      (supportedEntries_parts h).2.2
    rw [List.map_cons, List.mem_cons] at h2
    rcases h2 with h2 | h2
    · subst h2; exact hlt
    · exact keyLt_trans hlt (ih k1 t1 hrest k2 h2)

theorem data_quote : ("\"" : String).data = ['"'] := rfl

theorem data_quotecolonspace : ("\": " : String).data = ['"', ':', ' '] := rfl

theorem data_commaspace : (", " : String).data = [',', ' '] := rfl

theorem data_lbrace : ("\x7b" : String).data = ['\x7b'] := rfl

theorem data_rbrace : ("\x7d" : String).data = ['\x7d'] := rfl

theorem data_lbrack : ("[" : String).data = ['['] := rfl

theorem data_rbrack : ("]" : String).data = [']'] := rfl

theorem data_empty : ("" : String).data = [] := rfl

theorem stripAux_quoted2 (k b : List Char) (h : ∀ c ∈ k, c ≠ '"') :
    stripAux (('"' :: (k ++ ['"'])) ++ b) false
      = ('"' :: (k ++ ['"'])) ++ stripAux b false := by
  rw [List.cons_append, List.append_assoc, List.singleton_append,
    stripAux_quote_false, stripAux_inside _ _ h, stripAux_quote_true]
  simp

theorem strip_dumpLeaf {v : Option String} {m : PMode}
    (h : supportedB (.leaf v m) = true) (b : List Char) :
    stripAux ((dumpLeaf ⟨v, m⟩).data ++ b) false
      = (dumpLeaf ⟨v, m⟩).data ++ stripAux b false := by
  cases v with
  | none => cases m <;> simp [supportedB] at h
  | some s =>
    cases m with
    | unset => simp [supportedB] at h
    | strm =>
      simp only [supportedB, decide_eq_true_eq] at h
      have hnq : ∀ c ∈ s.data, c ≠ '"' := fun c hc he => h (he ▸ hc)
      rw [show (dumpLeaf ⟨some s, .strm⟩).data = '"' :: (s.data ++ ['"'])
        from rfl]
      exact stripAux_quoted2 _ b hnq
    | boolm =>
      have hcl : ∀ c ∈ (dumpLeaf ⟨some s, .boolm⟩).data,
          isSpace c = false ∧ c ≠ '"' := by
        simp only [dumpLeaf]
        by_cases hz : stoiNZ s
        · rw [if_pos hz]; decide
        · rw [if_neg hz]; decide
      exact stripAux_keep_clean _ b hcl
    | num =>
      simp only [supportedB] at h
      obtain ⟨hs, _⟩ := canonNum_spec h
      have hall : ∀ c ∈ (dumpLeaf ⟨some s, .num⟩).data, isNum c = true := by
        show ∀ c ∈ s.data, isNum c = true
        rw [hs]; exact natStr_all_num _
      exact stripAux_keep_clean _ b (fun c hc =>
        ⟨isNum_not_space (hall c hc), (isNum_ne_special (hall c hc)).2.2.2.2.1⟩)

mutual

theorem strip_dumpT :
    ∀ (t : JTree), supportedB t = true → ∀ b,
      stripAux ((dumpT t).data ++ b) false
        = cleanDump t ++ stripAux b false := by
  intro t h b
  cases t with
  | leaf v m =>
    simp only [dumpT, cleanDump]
    exact strip_dumpLeaf h b
  | obj kids =>
    simp only [supportedB] at h
    simp only [dumpT, cleanDump]
    rw [show ("\x7b" ++ dumpTEntries kids ++ "\x7d").data
        = '\x7b' :: ((dumpTEntries kids).data ++ ['\x7d']) from rfl]
    rw [List.cons_append, List.append_assoc, List.singleton_append,
      stripAux_char _ (by decide) (by decide),
      strip_dumpTEntries kids h ('\x7d' :: b),
      stripAux_char _ (by decide) (by decide)]
    simp
  | arr kids =>
    simp only [supportedB] at h
    simp only [dumpT, cleanDump]
    rw [show ("[" ++ dumpTElems kids ++ "]").data
        = '[' :: ((dumpTElems kids).data ++ [']']) from rfl]
    rw [List.cons_append, List.append_assoc, List.singleton_append,
      stripAux_char _ (by decide) (by decide),
      strip_dumpTElems kids h (']' :: b),
      stripAux_char _ (by decide) (by decide)]
    simp

theorem strip_dumpTEntries :
    ∀ (kids : List (String × JTree)), supportedEntries kids = true → ∀ b,
      stripAux ((dumpTEntries kids).data ++ b) false
        = cleanEntries kids ++ stripAux b false := by
  intro kids h b
  cases kids with
  | nil => simp [dumpTEntries, cleanEntries, data_empty]
  | cons p rest =>
    obtain ⟨k, t⟩ := p
    obtain ⟨hk, ht, hrest⟩ := supportedEntries_parts h
    have hknq : ∀ c ∈ k.data, c ≠ '"' := fun c hc he => hk (he ▸ hc)
    by_cases he : rest.isEmpty
    · have hnil : rest = [] := List.isEmpty_iff.mp he
      subst hnil
      simp only [dumpTEntries, cleanEntries, List.isEmpty_nil, if_pos,
        strData_append, data_quote, data_quotecolonspace, data_empty,
        List.cons_append, List.append_assoc, List.singleton_append,
        List.nil_append, List.append_nil]
      rw [stripAux_quote_false, stripAux_inside _ _ hknq,
        stripAux_quote_true,
        stripAux_char _ (by decide) (by decide),
        stripAux_space _ (by decide) (by decide),
        strip_dumpT t ht b]
    · rw [Bool.not_eq_true] at he
      simp [dumpTEntries, cleanEntries, he, strData_append, data_quote,
        data_quotecolonspace, data_commaspace, List.append_assoc]
      rw [stripAux_quote_false, stripAux_inside _ _ hknq,
        stripAux_quote_true,
        stripAux_char _ (by decide) (by decide),
        stripAux_space _ (by decide) (by decide),
        strip_dumpT t ht
          (',' :: (' ' :: ((dumpTEntries rest).data ++ b))),
        stripAux_char _ (by decide) (by decide),
        stripAux_space _ (by decide) (by decide),
        strip_dumpTEntries rest hrest b]

theorem strip_dumpTElems :
    ∀ (kids : List JTree), supportedElems kids = true → ∀ b,
      stripAux ((dumpTElems kids).data ++ b) false
        = cleanElems kids ++ stripAux b false := by
  intro kids h b
  cases kids with
  | nil => simp [dumpTElems, cleanElems, data_empty]
  | cons t rest =>
    obtain ⟨ht, hrest⟩ := supportedElems_parts h
    by_cases he : rest.isEmpty
    · have hnil : rest = [] := List.isEmpty_iff.mp he
      subst hnil
      simp only [dumpTElems, cleanElems, List.isEmpty_nil, if_pos,
        strData_append, data_empty, List.append_assoc, List.nil_append,
        List.append_nil]
      rw [strip_dumpT t ht b]
    · rw [Bool.not_eq_true] at he
      simp [dumpTElems, cleanElems, he, strData_append, data_commaspace,
        List.append_assoc]
      rw [strip_dumpT t ht
          (',' :: (' ' :: ((dumpTElems rest).data ++ b))),
        stripAux_char _ (by decide) (by decide),
        stripAux_space _ (by decide) (by decide),
        strip_dumpTElems rest hrest b]

end

/-! ### Parser lemmas on clean input -/

theorem splitAtQuote_clean :
    ∀ cs r, (∀ c ∈ cs, c ≠ '"') →
      splitAtQuote (cs ++ '"' :: r) = some (cs, r) := by
  intro cs
  induction cs with
  | nil => intro r _; simp [splitAtQuote]
  | cons c cs ih =>
    intro r h
    have hc : c ≠ '"' := h c (by simp)
    rw [List.cons_append]
    simp [splitAtQuote, hc, ih r (fun x hx => h x (by simp [hx]))]

theorem takeWhile_append_all (p : Char → Bool) :
    ∀ (cs r : List Char), (∀ c ∈ cs, p c = true) →
      (∀ c, r.head? = some c → p c = false) →
      (cs ++ r).takeWhile p = cs := by
  intro cs
  induction cs with
  | nil =>
    intro r _ hr
    cases r with
    | nil => rfl
    | cons c r' => simp [List.takeWhile_cons, hr c rfl]
  | cons c cs ih =>
    intro r h hr
    rw [List.cons_append, List.takeWhile_cons, h c (by simp),
      ih r (fun x hx => h x (by simp [hx])) hr]
    simp

theorem take4_ne_true {c : Char} (cs : List Char) (ht : c ≠ 't') :
    ¬(c :: cs).take 4 = "true".data := by
  intro h
  rw [List.take_succ_cons] at h
  have h2 : c :: cs.take 3 = 't' :: ['r', 'u', 'e'] := h
  injection h2 with h1 _
  exact ht h1

theorem take5_ne_false {c : Char} (cs : List Char) (hf : c ≠ 'f') :
    ¬(c :: cs).take 5 = "false".data := by
  intro h
  rw [List.take_succ_cons] at h
  have h2 : c :: cs.take 4 = 'f' :: ['a', 'l', 's', 'e'] := h
  injection h2 with h1 _
  exact hf h1

theorem keyLt_ne {a b : String} (h : keyLt a b = true) : a ≠ b := by
  intro he; subst he; rw [keyLt_irrefl] at h; cases h

theorem insertT_append {acc : List (String × JTree)} {k : String} {v : JTree}
    (h : ∀ k' ∈ acc.map Prod.fst, keyLt k' k = true) :
    insertT acc k v = acc ++ [(k, v)] := by
  induction acc with
  | nil => rfl
  | cons p rest ih =>
    obtain ⟨k0, v0⟩ := p
    have h0 : keyLt k0 k = true := h k0 (by simp)
    have hlt : keyLt k k0 = false := keyLt_asymm h0
    have hne : k ≠ k0 := fun he => keyLt_ne h0 he.symm
    simp only [insertT, hlt, Bool.false_eq_true, if_false, if_neg hne,
      List.cons_append]
    rw [ih (fun x hx => h x (by simp [hx]))]

theorem cleanDump_head (t : JTree) (h : supportedB t = true) :
    ∃ c cs, cleanDump t = c :: cs ∧ c ≠ ']' ∧ c ≠ '\x7d' ∧ c ≠ ',' := by
  cases t with
  | leaf v m =>
    cases v with
    | none => cases m <;> simp [supportedB] at h
    | some s =>
      cases m with
      | unset => simp [supportedB] at h
      | strm =>
        exact ⟨'"', s.data ++ ['"'], rfl, by decide, by decide, by decide⟩
      | boolm =>
        show ∃ c cs, (dumpLeaf ⟨some s, .boolm⟩).data = c :: cs ∧ _
        simp only [dumpLeaf]
        by_cases hz : stoiNZ s
        · rw [if_pos hz]
          exact ⟨'t', ['r', 'u', 'e'], rfl, by decide, by decide, by decide⟩
        · rw [if_neg hz]
          exact ⟨'f', ['a', 'l', 's', 'e'], rfl, by decide, by decide,
            by decide⟩
      | num =>
        simp only [supportedB] at h
        obtain ⟨hs, _⟩ := canonNum_spec h
        have hne := natStr_ne_nil (digitsVal s.data)
        rw [← hs] at hne
        obtain ⟨c, cs, hc⟩ := List.exists_cons_of_ne_nil hne
        have hnum : isNum c = true := by
          have := natStr_all_num (digitsVal s.data) c
          rw [← hs, hc] at this
          exact this (by simp)
        obtain ⟨_, _, _, _, _, _, h7, h8, h9⟩ := isNum_ne_special hnum
        exact ⟨c, cs, hc, h9, h8, h7⟩
  | obj kids =>
    exact ⟨'\x7b', cleanEntries kids ++ ['\x7d'], rfl, by decide, by decide,
      by decide⟩
  | arr kids =>
    exact ⟨'[', cleanElems kids ++ [']'], rfl, by decide, by decide,
      by decide⟩

theorem all_num_contains_dot {cs : List Char}
    (h : ∀ c ∈ cs, isNum c = true) : cs.contains '.' = false := by
  induction cs with
  | nil => rfl
  | cons c cs ih =>
    have hc : c ≠ '.' := (isNum_ne_special (h c (by simp))).2.2.2.2.2.1
    have hne : ('.' == c) = false := by simp [Ne.symm hc]
    rw [List.contains_cons, hne, Bool.false_or]
    exact ih (fun x hx => h x (by simp [hx]))

theorem cleanDump_leaf_head {v : Option String} {m : PMode}
    (h : supportedB (.leaf v m) = true) :
    ∃ c cs, cleanDump (.leaf v m) = c :: cs ∧ c ≠ '\x7b' ∧ c ≠ '[' := by
  cases v with
  | none => cases m <;> simp [supportedB] at h
  | some s =>
    cases m with
    | unset => simp [supportedB] at h
    | strm =>
      exact ⟨'"', s.data ++ ['"'], rfl, by decide, by decide⟩
    | boolm =>
      show ∃ c cs, (dumpLeaf ⟨some s, .boolm⟩).data = c :: cs ∧ _
      simp only [dumpLeaf]
      by_cases hz : stoiNZ s
      · rw [if_pos hz]
        exact ⟨'t', ['r', 'u', 'e'], rfl, by decide, by decide⟩
      · rw [if_neg hz]
        exact ⟨'f', ['a', 'l', 's', 'e'], rfl, by decide, by decide⟩
    | num =>
      simp only [supportedB] at h
      obtain ⟨hs, _⟩ := canonNum_spec h
      have hne := natStr_ne_nil (digitsVal s.data)
      rw [← hs] at hne
      obtain ⟨c, cs, hc⟩ := List.exists_cons_of_ne_nil hne
      have hnum : isNum c = true := by
        have := natStr_all_num (digitsVal s.data) c
        rw [← hs, hc] at this
        exact this (by simp)
      obtain ⟨h1, h2, _⟩ := isNum_ne_special hnum
      exact ⟨c, cs, hc, h1, h2⟩

theorem parseValue_leaf {v : Option String} {m : PMode}
    (h : supportedB (.leaf v m) = true) (rest : List Char)
    (hrest : RestOk rest) :
    parseValue (cleanDump (.leaf v m) ++ rest) = .ok (.leaf v m, rest) := by
  cases v with
  | none => cases m <;> simp [supportedB] at h
  | some s =>
    cases m with
    | unset => simp [supportedB] at h
    | strm =>
      simp only [supportedB, decide_eq_true_eq] at h
      have hnq : ∀ c ∈ s.data, c ≠ '"' := fun c hc he => h (he ▸ hc)
      have hin : cleanDump (.leaf (some s) .strm) ++ rest
          = '"' :: (s.data ++ '"' :: rest) := by
        show ('"' :: (s.data ++ ['"'])) ++ rest = _
        simp
      rw [hin]
      simp [parseValue,
        take4_ne_true (s.data ++ '"' :: rest)
          (by decide : ('"' : Char) ≠ 't'),
        take5_ne_false (s.data ++ '"' :: rest)
          (by decide : ('"' : Char) ≠ 'f'),
        (show isNum '"' = false from rfl),
        splitAtQuote_clean s.data rest hnq, string_mk_data]
    | boolm =>
      simp only [supportedB, Bool.or_eq_true, beq_iff_eq] at h
      rcases h with h | h <;> subst h
      · show parseValue (('t' :: ['r', 'u', 'e']) ++ rest) = _
        rfl
      · show parseValue (('f' :: ['a', 'l', 's', 'e']) ++ rest) = _
        rfl
    | num =>
      simp only [supportedB] at h
      obtain ⟨hs, hmax⟩ := canonNum_spec h
      have hall : ∀ c ∈ s.data, isNum c = true := by
        rw [hs]; exact natStr_all_num _
      have hne := natStr_ne_nil (digitsVal s.data)
      rw [← hs] at hne
      obtain ⟨c, cs', hc⟩ := List.exists_cons_of_ne_nil hne
      have hcnum : isNum c = true := hall c (by rw [hc]; simp)
      obtain ⟨hb1, hb2, hb3, hb4, hb5, hb6, hb7, hb8, hb9⟩ :=
        isNum_ne_special hcnum
      have hp : ∀ x ∈ s.data, ((x = '.' || isNum x) : Bool) = true :=
        fun x hx => by simp [hall x hx]
      have hr : ∀ x, rest.head? = some x →
          ((x = '.' || isNum x) : Bool) = false := by
        rcases hrest with hre | ⟨c0, r', hr0, hc0⟩
        · subst hre; intro x hx; simp at hx
        · subst hr0; intro x hx
          rw [List.head?_cons, Option.some.injEq] at hx
          subst hx
          rcases hc0 with h0 | h0 | h0 <;> (subst h0; rfl)
      have htw := takeWhile_append_all (fun ch => ch = '.' || isNum ch)
        s.data rest hp hr
      have hdot : s.data.contains '.' = false := all_num_contains_dot hall
      have hcd : cleanDump (.leaf (some s) .num) = s.data := rfl
      rw [hc] at htw hmax hs
      rw [hcd, hc]
      simp only [List.cons_append] at htw
      simp [hcnum] at htw
      have hmem : '.' ∉ cs' := by
        intro hm
        have := hall '.' (by rw [hc]; exact List.mem_cons_of_mem _ hm)
        exact absurd this (by decide)
      simp [parseValue, hb3, hb4, hcnum, htw, Ne.symm hb6, hmem,
        (show ¬LONGMAX < digitsVal (c :: cs') from by omega),
        List.drop_left, ← hs]

mutual

theorem parse_cleanDump :
    ∀ (t : JTree), supportedB t = true →
      ∀ (rest : List Char) (f : Nat), RestOk rest →
        (cleanDump t).length + 1 ≤ f →
        parseRec f (cleanDump t ++ rest) = .ok (t, rest) := by
  intro t h rest f hrest hf
  obtain ⟨f, rfl⟩ : ∃ g, f = g + 1 := ⟨f - 1, by omega⟩
  cases t with
  | leaf v m =>
    obtain ⟨c, cs, hc, hb1, hb2⟩ := cleanDump_leaf_head h
    rw [hc, List.cons_append]
    simp only [parseRec, List.head?_cons]
    rw [if_neg (by simp [hb1]), if_neg (by simp [hb2]),
      ← List.cons_append, ← hc]
    exact parseValue_leaf h rest hrest
  | obj kids =>
    simp only [supportedB] at h
    have hbound : (cleanEntries kids).length + 2 ≤ f := by
      simp [cleanDump] at hf; omega
    have hobj := parse_cleanEntries kids h [] rest f (by simp) hbound
    simp only [cleanDump]
    rw [show ('\x7b' :: (cleanEntries kids ++ ['\x7d'])) ++ rest
        = '\x7b' :: (cleanEntries kids ++ '\x7d' :: rest) by simp]
    simp [parseRec, hobj]
  | arr kids =>
    simp only [supportedB] at h
    have hbound : (cleanElems kids).length + 2 ≤ f := by
      simp [cleanDump] at hf; omega
    have harr := parse_cleanElems kids h [] rest f hbound
    simp only [cleanDump]
    rw [show ('[' :: (cleanElems kids ++ [']'])) ++ rest
        = '[' :: (cleanElems kids ++ ']' :: rest) by simp]
    simp [parseRec, harr]

theorem parse_cleanEntries :
    ∀ (kids : List (String × JTree)), supportedEntries kids = true →
      ∀ (acc : List (String × JTree)) (rest : List Char) (f : Nat),
        (∀ k1 ∈ acc.map Prod.fst, ∀ k2 ∈ kids.map Prod.fst,
          keyLt k1 k2 = true) →
        (cleanEntries kids).length + 2 ≤ f →
        parseObject f acc (cleanEntries kids ++ '\x7d' :: rest)
          = .ok (.obj (acc ++ kids), rest) := by
  intro kids h acc rest f hlt hf
  obtain ⟨f, rfl⟩ : ∃ g, f = g + 1 := ⟨f - 1, by omega⟩
  cases kids with
  | nil =>
    simp only [cleanEntries, List.nil_append]
    simp [parseObject]
  | cons p tail =>
    obtain ⟨k, t⟩ := p
    obtain ⟨hk, ht, htail⟩ := supportedEntries_parts h
    have hknq : ∀ c ∈ k.data, c ≠ '"' := fun c hc he => hk (he ▸ hc)
    by_cases hte : tail.isEmpty
    · have h0 : tail = [] := List.isEmpty_iff.mp hte
      subst h0
      have hbound : (cleanDump t).length + 1 ≤ f := by
        simp [cleanEntries] at hf; omega
      have hval' := parse_cleanDump t ht ('\x7d' :: rest) f
        (Or.inr ⟨'\x7d', rest, rfl, Or.inr (Or.inl rfl)⟩) hbound
      rw [show cleanEntries [(k, t)] ++ '\x7d' :: rest
          = '"' :: (k.data ++ '"' :: ':' ::
            (cleanDump t ++ '\x7d' :: rest)) by simp [cleanEntries]]
      obtain ⟨g, rfl⟩ : ∃ g, f = g + 1 := ⟨f - 1, by omega⟩
      simp [parseObject, splitAtQuote_clean k.data _ hknq, hval',
        string_mk_data,
        insertT_append (fun k' hk' => hlt k' hk' k (by simp))]
    · rw [Bool.not_eq_true] at hte
      simp [cleanEntries, hte] at hf
      have hbound1 : (cleanDump t).length + 1 ≤ f := by omega
      have hbound2 : (cleanEntries tail).length + 2 ≤ f := by omega
      have hval' := parse_cleanDump t ht
        (',' :: (cleanEntries tail ++ '\x7d' :: rest)) f
        (Or.inr ⟨',', _, rfl, Or.inl rfl⟩) hbound1
      rw [show cleanEntries ((k, t) :: tail) ++ '\x7d' :: rest
          = '"' :: (k.data ++ '"' :: ':' ::
            (cleanDump t ++ ',' :: (cleanEntries tail ++ '\x7d' :: rest)))
          by simp [cleanEntries, hte]]
      have hstep : parseObject (f + 1) acc
          ('"' :: (k.data ++ '"' :: ':' ::
            (cleanDump t ++ ',' :: (cleanEntries tail ++ '\x7d' :: rest))))
          = parseObject f (acc ++ [(k, t)])
              (cleanEntries tail ++ '\x7d' :: rest) := by
        simp [parseObject, splitAtQuote_clean k.data _ hknq, hval',
          string_mk_data,
          insertT_append (fun k' hk' => hlt k' hk' k (by simp))]
      rw [hstep]
      have hlt' : ∀ k1 ∈ (acc ++ [(k, t)]).map Prod.fst,
          ∀ k2 ∈ tail.map Prod.fst, keyLt k1 k2 = true := by
        intro k1 h1 k2 h2
        rw [List.map_append, List.mem_append] at h1
        rcases h1 with h1 | h1
        · exact hlt k1 h1 k2 (by simp [h2])
        · simp at h1
          rw [h1]
          exact supportedEntries_head_lt tail k t h k2 h2
      rw [parse_cleanEntries tail htail (acc ++ [(k, t)]) rest f hlt' hbound2]
      simp

theorem parse_cleanElems :
    ∀ (kids : List JTree), supportedElems kids = true →
      ∀ (acc : List JTree) (rest : List Char) (f : Nat),
        (cleanElems kids).length + 2 ≤ f →
        parseArray f acc (cleanElems kids ++ ']' :: rest)
          = .ok (.arr (acc ++ kids), rest) := by
  intro kids h acc rest f hf
  obtain ⟨f, rfl⟩ : ∃ g, f = g + 1 := ⟨f - 1, by omega⟩
  cases kids with
  | nil =>
    simp only [cleanElems, List.nil_append]
    simp [parseArray]
  | cons t tail =>
    obtain ⟨ht, htail⟩ := supportedElems_parts h
    obtain ⟨c, cs0, hc, hb1, _, _⟩ := cleanDump_head t ht
    by_cases hte : tail.isEmpty
    · have h0 : tail = [] := List.isEmpty_iff.mp hte
      subst h0
      have hbound : (cleanDump t).length + 1 ≤ f := by
        simp [cleanElems] at hf; omega
      have hval' : parseRec f (c :: (cs0 ++ ']' :: rest))
          = .ok (t, ']' :: rest) := by
        rw [← List.cons_append, ← hc]
        exact parse_cleanDump t ht (']' :: rest) f
          (Or.inr ⟨']', rest, rfl, Or.inr (Or.inr rfl)⟩) hbound
      rw [show cleanElems [t] ++ ']' :: rest = cleanDump t ++ ']' :: rest
        by simp [cleanElems]]
      rw [hc, List.cons_append]
      obtain ⟨g, rfl⟩ : ∃ g, f = g + 1 := ⟨f - 1, by omega⟩
      simp [parseArray, hb1, hval']
    · rw [Bool.not_eq_true] at hte
      simp [cleanElems, hte] at hf
      have hbound1 : (cleanDump t).length + 1 ≤ f := by omega
      have hbound2 : (cleanElems tail).length + 2 ≤ f := by omega
      have hval' : parseRec f
          (c :: (cs0 ++ ',' :: (cleanElems tail ++ ']' :: rest)))
          = .ok (t, ',' :: (cleanElems tail ++ ']' :: rest)) := by
        rw [← List.cons_append, ← hc]
        exact parse_cleanDump t ht _ f (Or.inr ⟨',', _, rfl, Or.inl rfl⟩)
          hbound1
      rw [show cleanElems (t :: tail) ++ ']' :: rest
          = cleanDump t ++ ',' :: (cleanElems tail ++ ']' :: rest)
          by simp [cleanElems, hte]]
      rw [hc, List.cons_append]
      have hstep : parseArray (f + 1) acc
          (c :: (cs0 ++ ',' :: (cleanElems tail ++ ']' :: rest)))
          = parseArray f (acc ++ [t]) (cleanElems tail ++ ']' :: rest) := by
        simp [parseArray, hb1, hval']
      rw [hstep, parse_cleanElems tail htail (acc ++ [t]) rest f hbound2]
      simp

end

/-- C1, counterexample: the round-trip law fails already for integer
leaves.  `Json(-1)` stores the text `std::to_string(-1) = "-1"` in a
numeric leaf and serializes it as `-1`, but `parse_value` recognizes no
leading minus sign — `'-'` fails the `true`/`false` prefix tests, is not a
digit and not a quote — so `Json::parse_str` throws `MalformedJson` instead
of reconstructing the tree. -/
theorem c1_roundtrip_counterexample :
    dumpT (.leaf (some (intStr (-1))) .num) = "-1" ∧
    parseStr (dumpT (.leaf (some (intStr (-1))) .num))
      = .error .malformed := by
  constructor
  · rfl
  · rfl

/-- C1 (amended).  Round trip holds on the fragment the parser can
re-read: trees whose string leaves and object keys contain no quote
character, whose boolean leaves hold the `Json(bool)` texts `"1"`/`"0"`,
whose numeric leaves hold a canonical nonnegative decimal integer not
exceeding `LONG_MAX`, and whose object keys are strictly sorted (as
`std::map` keeps them).  For every such tree, `parse_str` applied to the
`dump` output succeeds and rebuilds exactly the same tree — same key set
per object, same element order per array, same stored leaf text.  Negative
integers and float leaves are excluded: the parser rejects `-`, and float
re-rendering does not preserve the text. -/
theorem c1_roundtrip_amended (t : JTree) (h : supportedB t = true) :
    parseStr (dumpT t) = .ok t := by
  have hstrip : stripAux (dumpT t).data false = cleanDump t := by
    simpa [stripAux_nil] using strip_dumpT t h []
  have hp := parse_cleanDump t h [] ((cleanDump t).length + 1)
    (Or.inl rfl) (le_refl _)
  rw [List.append_nil] at hp
  simp only [parseStr]
  rw [hstrip, hp]

/-- Witness for C1: a concrete supported document — an object holding a
number and an array of a string and a boolean — round-trips. -/
theorem c1_roundtrip_witness :
    supportedB (JTree.obj [("age", .leaf (some (natStr 27)) .num),
      ("kids", .arr [.leaf (some "ann") .strm, .leaf (some "1") .boolm])])
      = true ∧
    parseStr (dumpT (JTree.obj [("age", .leaf (some (natStr 27)) .num),
      ("kids", .arr [.leaf (some "ann") .strm,
        .leaf (some "1") .boolm])]))
      = .ok (JTree.obj [("age", .leaf (some (natStr 27)) .num),
        ("kids", .arr [.leaf (some "ann") .strm,
          .leaf (some "1") .boolm])]) :=
  ⟨by decide, c1_roundtrip_amended _ (by decide)⟩

end Jsonpp
